import Mathlib

/-!
Verification development for the hierarchical clustering index
(src/cpp/flann/algorithms/hierarchical_clustering_index.h).

The data model and the operations are shallowly embedded: pointers into the
dataset become dataset indices, the dataset itself a `List α`, distances take
values in a linear order `β`, machine loops become structural recursions.
External collaborators that are not part of the repository snapshot
(util/result_set.h, util/heap.h, util/dist.h, nn_index.h, center choosers)
are modelled from the specification and marked as such in doc comments.
-/

set_option maxRecDepth 16000

namespace Flann

/-- Point record stored in a leaf (`PointInfo` in the source): the dataset
index and the point data the stored pointer refers to. -/
structure PointInfo (α : Type) where
  index : Nat
  point : α
deriving DecidableEq, Repr

mutual
/-- Tree node (`Node` in the source): cluster-center pivot, child nodes
(non-empty only for inner nodes) and leaf points. -/
inductive Node (α : Type) : Type where
  | mk (pivot : α) (childs : NodeList α) (points : List (PointInfo α))
/-- Children of a node, as a dedicated inductive so that structural recursion
over the tree (and kernel evaluation of it) is available. -/
inductive NodeList (α : Type) : Type where
  | nil : NodeList α
  | cons : Node α → NodeList α → NodeList α
end

deriving instance DecidableEq for Node
deriving instance DecidableEq for NodeList

namespace NodeList

/-- Children as a plain list. -/
def toList {α : Type} : NodeList α → List (Node α)
  | .nil => []
  | .cons c cs => c :: toList cs

/-- Children list from a plain list. -/
def ofList {α : Type} : List (Node α) → NodeList α
  | [] => .nil
  | c :: cs => .cons c (ofList cs)

end NodeList

/-- Pivot of a node. -/
def Node.pivot {α : Type} : Node α → α
  | .mk pv _ _ => pv

/-- Children of a node. -/
def Node.childs {α : Type} : Node α → NodeList α
  | .mk _ cs _ => cs

/-- Leaf points of a node. -/
def Node.points {α : Type} : Node α → List (PointInfo α)
  | .mk _ _ ps => ps

mutual
/-- Number of nodes of a tree; used as search-loop fuel. -/
def Node.weight {α : Type} : Node α → Nat
  | .mk _ cs _ => NodeList.weightList cs + 1
/-- Total number of nodes of a children list. -/
def NodeList.weightList {α : Type} : NodeList α → Nat
  | .nil => 0
  | .cons c cs => c.weight + NodeList.weightList cs
end

mutual
/-- Point records reachable by a leaf-descent below a node: a childless node
contributes its `points`, an inner node collects from its children (stale
`points` on an inner node are never read, matching `findNN`). -/
def Node.leafInfos {α : Type} : Node α → List (PointInfo α)
  | .mk _ .nil ps => ps
  | .mk _ (.cons c cs) _ => NodeList.leafInfosList (.cons c cs)
/-- Leaf point records below a children list. -/
def NodeList.leafInfosList {α : Type} : NodeList α → List (PointInfo α)
  | .nil => []
  | .cons c cs => c.leafInfos ++ NodeList.leafInfosList cs
end

/-- Dataset indices stored across the leaves below a node. -/
def Node.leafIndices {α : Type} (t : Node α) : List Nat :=
  t.leafInfos.map PointInfo.index

/-- Index of the first minimum, as computed by the source's running-minimum
loops (`computeLabels`, `findNN`, `addPointToTree`): the strict comparison
keeps the earlier index on ties. `d` is the current best value, `i` the next
position, `best` the current best position. -/
def minIdxAux {β : Type} [LinearOrder β] : List β → β → Nat → Nat → Nat
  | [], _, _, best => best
  | d :: ds, bd, i, best =>
    if d < bd then minIdxAux ds d (i + 1) i else minIdxAux ds bd (i + 1) best

/-- Index of the first minimum of a list (0 on the empty list). -/
def minIdx {β : Type} [LinearOrder β] : List β → Nat
  | [] => 0
  | d :: ds => minIdxAux ds d 1 0

/-- Swap of two positions of a list, reading both entries before writing
(`std::swap(l[a], l[b])`). -/
def listSwap {γ : Type} [Inhabited γ] (l : List γ) (a b : Nat) : List γ :=
  (l.set a (l.getD b default)).set b (l.getD a default)

/-- One scan step block of the in-place partition loop of `computeClustering`
for label value `i`: positions `j, j+1, ...` are visited (`rem` many remain);
an entry labelled `i` is swapped down to position `e` (the code's `end`
counter), in both the `indices` and the `labels` array. -/
def passAux (i : Nat) : Nat → List Nat → List Nat → Nat → Nat →
    List Nat × List Nat × Nat
  | 0, ind, lab, e, _ => (ind, lab, e)
  | rem + 1, ind, lab, e, j =>
    if lab.getD j 0 = i then
      passAux i rem (listSwap ind j e) (listSwap lab j e) (e + 1) (j + 1)
    else
      passAux i rem ind lab e (j + 1)

/-- The full scan of the partition loop for label `i`: `j` runs over all
positions, starting from the `end` counter value `e` of the previous pass. -/
def partPass (i : Nat) (ind lab : List Nat) (e : Nat) : List Nat × List Nat × Nat :=
  passAux i ind.length ind lab e 0

/-- Labels assigned by `computeLabels`: for each index, the position of the
first nearest center (ties keep the lower label, by the strict comparison in
the source). -/
def computeLabels {α β : Type} [Inhabited α] [LinearOrder β]
    (dist : α → α → β) (data : List α) (indices centers : List Nat) : List Nat :=
  indices.map fun idx =>
    minIdx (centers.map fun c => dist (data.getD idx default) (data.getD c default))

mutual
/-- The recursive hierarchical clustering (`computeClustering` in the source),
acting on a node with pivot `pivot` and current points `oldPoints` (the split
path of the source never clears `node->points`, so an inner node keeps them;
they are dead data, see `Node.leafInfos`). `chooser` stands for the external
center chooser object (center_chooser.h is not in src): it receives the
candidate indices and its output buffer is truncated to `branching` entries.
`fuel` bounds the recursion depth; `none` means the fuel ran out. -/
def computeClustering {α β : Type} [Inhabited α] [LinearOrder β]
    (dist : α → α → β) (data : List α) (branching leafSize : Nat)
    (chooser : List Nat → List Nat) :
    Nat → α → List (PointInfo α) → List Nat → Option (Node α)
  | 0, _, _, _ => none
  | fuel + 1, pivot, oldPoints, indices =>
    if indices.length < leafSize then
      some (.mk pivot .nil (indices.map fun i => ⟨i, data.getD i default⟩))
    else
      if ((chooser indices).take branching).length < branching then
        some (.mk pivot .nil (indices.map fun i => ⟨i, data.getD i default⟩))
      else
        match clusterChildren dist data branching leafSize chooser fuel
            ((chooser indices).take branching) 0 indices
            (computeLabels dist data indices ((chooser indices).take branching)) 0 with
        | some childs => some (.mk pivot (NodeList.ofList childs) oldPoints)
        | none => none

/-- The per-center loop of `computeClustering`: for center `i`, run partition
pass `i` (continuing from `end` counter `start`), then recursively cluster the
fresh child (empty points, pivot at the center's dataset point) on the slice
`[start, e)` of the reordered indices. Later passes never touch positions
below `e`, so slicing at this moment matches the in-place code. -/
def clusterChildren {α β : Type} [Inhabited α] [LinearOrder β]
    (dist : α → α → β) (data : List α) (branching leafSize : Nat)
    (chooser : List Nat → List Nat) :
    Nat → List Nat → Nat → List Nat → List Nat → Nat → Option (List (Node α))
  | 0, _, _, _, _, _ => none
  | _ + 1, [], _, _, _, _ => some []
  | fuel + 1, c :: crest, i, ind, lab, start =>
    match partPass i ind lab start with
    | (ind2, lab2, e2) =>
      match computeClustering dist data branching leafSize chooser fuel
          (data.getD c default) [] ((ind2.drop start).take (e2 - start)) with
      | some child =>
        match clusterChildren dist data branching leafSize chooser fuel
            crest (i + 1) ind2 lab2 e2 with
        | some rest => some (child :: rest)
        | none => none
      | none => none
end

/-- Index state. Modelled from the spec: the dataset view and the size
bookkeeping live in the base class (nn_index.h is not in src); the dataset
is an ordered sequence addressable by index, `sizeAtBuild` the number of
points when the forest was last built. -/
structure HIndex (α : Type) where
  data : List α
  sizeAtBuild : Nat
  forest : List (Node α)
deriving DecidableEq

/-- The forest construction loop of `buildIndex`: each of the `trees` roots is
clustered over the full index range `0, ..., n-1` (the `indices` vector is
refilled before every tree). -/
def buildForest {α β : Type} [Inhabited α] [LinearOrder β]
    (dist : α → α → β) (data : List α) (branching leafSize : Nat)
    (chooser : List Nat → List Nat) (fuel trees : Nat) : Option (List (Node α)) :=
  (List.range trees).mapM fun _ =>
    computeClustering dist data branching leafSize chooser fuel default []
      (List.range data.length)

/-- `buildIndex`: reject a branching factor below 2, build the forest, record
the dataset size in `size_at_build_`. -/
def buildIndex {α β : Type} [Inhabited α] [LinearOrder β]
    (dist : α → α → β) (branching leafSize : Nat)
    (chooser : List Nat → List Nat) (fuel trees : Nat) (data : List α) :
    Option (HIndex α) :=
  if branching < 2 then none
  else
    match buildForest dist data branching leafSize chooser fuel trees with
    | some forest => some ⟨data, data.length, forest⟩
    | none => none

mutual
/-- `addPointToTree`: at a childless node append the new point record; if the
point count then reaches the branching factor, re-cluster the node over its
accumulated indices (the node keeps its pivot and, on the split path, its
points). At an inner node descend into the child with the closest pivot
(first minimum on ties, matching the strict comparison in the source). -/
def addPointToTree {α β : Type} [Inhabited α] [LinearOrder β]
    (dist : α → α → β) (data : List α) (branching leafSize : Nat)
    (chooser : List Nat → List Nat) (fuel : Nat) :
    Node α → Nat → Option (Node α)
  | .mk pv .nil ps, idx =>
    let ps2 := ps ++ [⟨idx, data.getD idx default⟩]
    if branching ≤ ps2.length then
      computeClustering dist data branching leafSize chooser fuel pv ps2
        (ps2.map PointInfo.index)
    else some (.mk pv .nil ps2)
  | .mk pv (.cons c cs) ps, idx =>
    let dd := (NodeList.cons c cs).toList.map fun ch =>
      dist ch.pivot (data.getD idx default)
    match addPointAt dist data branching leafSize chooser fuel
        (NodeList.cons c cs) (minIdx dd) idx with
    | some cs2 => some (.mk pv cs2 ps)
    | none => none

/-- Descent of `addPointToTree` into the chosen child position. -/
def addPointAt {α β : Type} [Inhabited α] [LinearOrder β]
    (dist : α → α → β) (data : List α) (branching leafSize : Nat)
    (chooser : List Nat → List Nat) (fuel : Nat) :
    NodeList α → Nat → Nat → Option (NodeList α)
  | .nil, _, _ => none
  | .cons c cs, 0, idx =>
    match addPointToTree dist data branching leafSize chooser fuel c idx with
    | some c2 => some (.cons c2 cs)
    | none => none
  | .cons c cs, k + 1, idx =>
    match addPointAt dist data branching leafSize chooser fuel cs k idx with
    | some cs2 => some (.cons c cs2)
    | none => none
end

/-- The incremental branch of `addPoints`: each new point (dataset indices
`oldN, ..., oldN + m - 1`, in order) is routed down every tree of the
forest. -/
def addPointsIncremental {α β : Type} [Inhabited α] [LinearOrder β]
    (dist : α → α → β) (data2 : List α) (branching leafSize : Nat)
    (chooser : List Nat → List Nat) (fuel : Nat)
    (forest : List (Node α)) (oldN m : Nat) : Option (List (Node α)) :=
  (List.range m).foldlM
    (fun f i => f.mapM fun t =>
      addPointToTree dist data2 branching leafSize chooser fuel t (oldN + i))
    forest

/-- `addPoints`: extend the dataset by the new points; if the rebuild
threshold is exceeded (`rebuild_threshold > 1` and
`size_at_build * rebuild_threshold < size`), drop the forest and rebuild from
scratch; otherwise route every new point down every tree. The float threshold
is modelled as a rational. -/
def addPoints {α β : Type} [Inhabited α] [LinearOrder β]
    (dist : α → α → β) (branching leafSize : Nat)
    (chooser : List Nat → List Nat) (fuel trees : Nat)
    (st : HIndex α) (newPts : List α) (threshold : ℚ) : Option (HIndex α) :=
  let data2 := st.data ++ newPts
  if 1 < threshold ∧ (st.sizeAtBuild : ℚ) * threshold < (data2.length : ℚ) then
    buildIndex dist branching leafSize chooser fuel trees data2
  else
    match addPointsIncremental dist data2 branching leafSize chooser fuel
        st.forest st.data.length newPts.length with
    | some f2 => some ⟨data2, st.sizeAtBuild, f2⟩
    | none => none

mutual
/-- `save_tree`: each node is serialized as its pivot followed by its child
count, then the children in order; leaf point indices are not written. -/
def saveTree {α : Type} : Node α → List (α × Nat)
  | .mk pv cs _ => (pv, cs.toList.length) :: saveChildsList cs
/-- Serialization of a children list, in order. -/
def saveChildsList {α : Type} : NodeList α → List (α × Nat)
  | .nil => []
  | .cons c cs => saveTree c ++ saveChildsList cs
end

mutual
/-- `load_tree`: allocate a fresh node (empty children and points), read the
pivot and child count, and if the count is positive parse that many children.
Leaf points are never reconstructed. `fuel` bounds the recursion. -/
def loadTree {α : Type} : Nat → List (α × Nat) → Option (Node α × List (α × Nat))
  | 0, _ => none
  | _ + 1, [] => none
  | fuel + 1, (pv, c) :: rest =>
    if c = 0 then some (.mk pv .nil [], rest)
    else
      match loadChilds fuel c rest with
      | some (cs, r) => some (.mk pv cs [], r)
      | none => none
/-- Parse `count` children from the stream. -/
def loadChilds {α : Type} : Nat → Nat → List (α × Nat) → Option (NodeList α × List (α × Nat))
  | _, 0, rest => some (.nil, rest)
  | 0, _ + 1, _ => none
  | fuel + 1, count + 1, rest =>
    match loadTree fuel rest with
    | some (c, r1) =>
      match loadChilds fuel count r1 with
      | some (cs, r2) => some (.cons c cs, r2)
      | none => none
    | none => none
end

mutual
/-- Parser fuel sufficient for `loadTree` on the serialized form of a tree. -/
def Node.loadFuel {α : Type} : Node α → Nat
  | .mk _ cs _ => NodeList.loadFuelList cs + 1
/-- Parser fuel sufficient for `loadChilds` on a serialized children list. -/
def NodeList.loadFuelList {α : Type} : NodeList α → Nat
  | .nil => 1
  | .cons c cs => c.loadFuel + NodeList.loadFuelList cs + 1
end

mutual
/-- The tree `loadIndex` reconstructs from the serialized form of a tree:
the same shape and pivots, with every points list empty. -/
def Node.stripPoints {α : Type} : Node α → Node α
  | .mk pv cs _ => .mk pv cs.stripList []
/-- Pointwise `stripPoints` on a children list. -/
def NodeList.stripList {α : Type} : NodeList α → NodeList α
  | .nil => .nil
  | .cons c cs => .cons c.stripPoints cs.stripList
end

/-- Lexicographic order on (distance, index) pairs: smaller distance first,
ties broken by the lower dataset index. -/
def lexLe {β : Type} [LinearOrder β] (a b : β × Nat) : Prop :=
  a.1 < b.1 ∨ (a.1 = b.1 ∧ a.2 ≤ b.2)

instance {β : Type} [LinearOrder β] : DecidableRel (@lexLe β _) := fun a b => by
  unfold lexLe; infer_instance

/-- Modelled from the spec: the `ResultSet` collaborator (util/result_set.h is
not in src) is a k-nearest-neighbor accumulator; `addPoint` is best-effort
insertion keeping the `cap` smallest (distance, index) pairs, with distance
ties broken by the lower index, and `full` signals that the capacity is
reached. -/
structure Knn (β : Type) where
  cap : Nat
  pairs : List (β × Nat)
deriving DecidableEq

/-- Fresh empty accumulator of capacity `k`. -/
def Knn.empty {β : Type} (k : Nat) : Knn β := ⟨k, []⟩

/-- The accumulator is full. -/
def Knn.full {β : Type} (r : Knn β) : Prop := r.cap ≤ r.pairs.length

instance {β : Type} (r : Knn β) : Decidable r.full := Nat.decLe _ _

/-- Best-effort insertion of one scored pair. -/
def Knn.add {β : Type} [LinearOrder β] (r : Knn β) (d : β) (i : Nat) : Knn β :=
  ⟨r.cap, (List.orderedInsert lexLe (d, i) r.pairs).take r.cap⟩

/-- Search state threaded through one `findNeighbors` call: the result
accumulator, the `checks` counter, the branch priority queue (modelled from
the spec, util/heap.h is not in src: an unbounded min-heap on the lower-bound
distance), the `checked` bitset (util/dynamic_bitset.h is not in src; a set
of dataset indices), and the ghost trace `events` of the (distance, index)
pairs offered to the result, in order. -/
structure SState (α β : Type) where
  res : Knn β
  checks : Nat
  heap : List (Node α × β)
  checked : Finset Nat
  events : List (β × Nat)

/-- The leaf scoring loop of `findNN`: every point not yet checked and not
removed is scored against the query and offered to the result; its index is
marked checked and the `checks` counter grows, without any budget test. -/
def scorePoints {α β : Type} [LinearOrder β] (dist : α → α → β) (q : α)
    (removed : Nat → Bool) : List (PointInfo α) → SState α β → SState α β
  | [], s => s
  | p :: ps, s =>
    if p.index ∈ s.checked ∨ removed p.index then scorePoints dist q removed ps s
    else
      scorePoints dist q removed ps
        { res := s.res.add (dist p.point q) p.index
          checks := s.checks + 1
          heap := s.heap
          checked := insert p.index s.checked
          events := s.events ++ [(dist p.point q, p.index)] }

mutual
/-- One descent of `findNN`: at a childless node, return immediately when the
budget is exhausted and the result is full, otherwise score the whole leaf;
at an inner node, compute the query-to-pivot distance of every child, push all
children but the (first) closest onto the heap, and descend into the closest.
The loop over children reads the actual children list (the source indexes
`childs[0..branching)`, which coincides under the shape invariant). -/
def findNN {α β : Type} [LinearOrder β] (dist : α → α → β) (q : α)
    (maxChecks : Nat) (removed : Nat → Bool) : Node α → SState α β → SState α β
  | .mk _ .nil ps, s =>
    if maxChecks ≤ s.checks ∧ s.res.full then s
    else scorePoints dist q removed ps s
  | .mk _ (.cons c cs) _, s =>
    let childs := (NodeList.cons c cs).toList
    let dd := childs.map fun ch => dist q ch.pivot
    let best := minIdx dd
    let pushed := (childs.zip dd).eraseIdx best
    findNNAt dist q maxChecks removed (NodeList.cons c cs) best
      { s with heap := s.heap ++ pushed }
/-- Descent of `findNN` into the chosen child position. -/
def findNNAt {α β : Type} [LinearOrder β] (dist : α → α → β) (q : α)
    (maxChecks : Nat) (removed : Nat → Bool) :
    NodeList α → Nat → SState α β → SState α β
  | .nil, _, s => s
  | .cons c _, 0, s => findNN dist q maxChecks removed c s
  | .cons _ cs, k + 1, s => findNNAt dist q maxChecks removed cs k s
end

/-- Pop a branch of minimal lower-bound distance (the first such entry) from
the queue. -/
def popMin {α β : Type} [LinearOrder β] (h : List (Node α × β)) :
    Option ((Node α × β) × List (Node α × β)) :=
  match h with
  | [] => none
  | b :: bs =>
    let j := minIdx ((b :: bs).map Prod.snd)
    some ((b :: bs).getD j b, (b :: bs).eraseIdx j)

/-- The best-bin-first loop of `findNeighbors`: pop the closest deferred
branch; if the budget still allows (or the result is not yet full), descend
from it, otherwise stop. `fuel` bounds the iteration count. -/
def searchLoop {α β : Type} [LinearOrder β] (dist : α → α → β) (q : α)
    (maxChecks : Nat) (removed : Nat → Bool) : Nat → SState α β → SState α β
  | 0, s => s
  | fuel + 1, s =>
    match popMin s.heap with
    | none => s
    | some (br, rest) =>
      if s.checks < maxChecks ∨ ¬ s.res.full then
        searchLoop dist q maxChecks removed fuel
          (findNN dist q maxChecks removed br.1 { s with heap := rest })
      else { s with heap := rest }

/-- Total node count of a forest; an upper bound on the number of best-bin
iterations, used as the loop fuel. -/
def forestWeight {α : Type} (forest : List (Node α)) : Nat :=
  (forest.map Node.weight).sum

/-- The state every query starts from: empty accumulator of capacity `k`,
zero checks, empty heap, empty checked set. -/
def initState {α β : Type} (k : Nat) : SState α β :=
  ⟨Knn.empty k, 0, [], ∅, []⟩

/-- `findNeighbors`: one initial descent per tree, then the best-bin-first
loop over the shared heap. -/
def findNeighbors {α β : Type} [LinearOrder β] (dist : α → α → β) (q : α)
    (k maxChecks : Nat) (removed : Nat → Bool) (forest : List (Node α)) :
    SState α β :=
  searchLoop dist q maxChecks removed (forestWeight forest)
    (forest.foldl (fun s t => findNN dist q maxChecks removed t s) (initState k))

/-- Brute-force scored pairs, following the claim's words: the distance from
the query to every non-removed dataset point, in index order. -/
def bruteForcePairs {α β : Type} [Inhabited α] (dist : α → α → β) (q : α)
    (data : List α) (removed : Nat → Bool) : List (β × Nat) :=
  ((List.range data.length).filter fun i => !removed i).map fun i =>
    (dist q (data.getD i default), i)

/-- Brute-force top-k, following the claim's words: the k smallest
(distance, index) pairs of the brute-force computation. -/
def bruteForceTopK {α β : Type} [Inhabited α] [LinearOrder β] (k : Nat)
    (dist : α → α → β) (q : α) (data : List α) (removed : Nat → Bool) :
    List (β × Nat) :=
  (List.insertionSort lexLe (bruteForcePairs dist q data removed)).take k

/-- The concrete squared distance on integer points used by the witnesses. -/
def sqDist (x y : Int) : Int := (x - y) * (x - y)

/-- The dataset indices a query may score: in range and not removed. -/
def allNonRemoved (n : Nat) (removed : Nat → Bool) : Finset Nat :=
  (Finset.range n).filter fun i => removed i = false

/-- Well-formedness of a tree with respect to the dataset: every stored leaf
point is in range and carries the dataset vector of its index. -/
def goodTree {α : Type} [Inhabited α] (data : List α) (t : Node α) : Prop :=
  ∀ p ∈ t.leafInfos, p.index < data.length ∧ p.point = data.getD p.index default

/-- Total weight of the nodes held in the branch queue; the loop measure. -/
def heapWeight {α β : Type} (h : List (Node α × β)) : Nat :=
  (h.map fun b => b.1.weight).sum

/-- Full search-state invariant: the checks counter counts the checked set,
the checked set holds exactly the offered indices (all in range and not
removed), every offered pair carries the true distance to the query, and the
result accumulator is the fold of the offers; all queued branches are
well-formed. -/
def SInv {α β : Type} [Inhabited α] [LinearOrder β] (dist : α → α → β) (q : α)
    (data : List α) (removed : Nat → Bool) (k : Nat) (s : SState α β) : Prop :=
  s.checks = s.checked.card ∧
  s.checked ⊆ allNonRemoved data.length removed ∧
  ((s.events.map Prod.snd).Nodup) ∧
  (s.events.map Prod.snd).toFinset = s.checked ∧
  (∀ e ∈ s.events, e.1 = dist (data.getD e.2 default) q) ∧
  s.res = s.events.foldl (fun r e => r.add e.1 e.2) (Knn.empty k) ∧
  ∀ b ∈ s.heap, goodTree data b.1

/-- Trace invariant of the search state: no dataset index is offered twice
(its distance is computed at most once), every offered index is recorded in
the checked set, and no offered index is removed. -/
def TraceOK {α β : Type} (removed : Nat → Bool) (s : SState α β) : Prop :=
  ((s.events.map Prod.snd).Nodup) ∧
  ∀ e ∈ s.events, e.2 ∈ s.checked ∧ removed e.2 = false

mutual
/-- Shape invariant: every node of the tree has either no children (a leaf)
or exactly `b` children. -/
def Node.shapeOK {α : Type} (b : Nat) : Node α → Prop
  | .mk _ .nil _ => True
  | .mk _ (.cons c cs) _ =>
    (NodeList.cons c cs).toList.length = b ∧ NodeList.shapeOKList b (.cons c cs)
/-- Shape invariant for every node of a children list. -/
def NodeList.shapeOKList {α : Type} (b : Nat) : NodeList α → Prop
  | .nil => True
  | .cons c cs => Node.shapeOK b c ∧ NodeList.shapeOKList b cs
end

/-! ### Basic facts about the embedded structures -/

theorem NodeList.toList_ofList {α : Type} (l : List (Node α)) :
    (NodeList.ofList l).toList = l := by
  induction l with
  | nil => rfl
  | cons c cs ih => simp [NodeList.ofList, NodeList.toList, ih]

/-! ### C6: rebuild threshold of addPoints -/

/-- C6: for every index and call to `addPoints`, the forest is rebuilt from
scratch (buildIndex rerun over all points, size-at-build set to the new total)
exactly when `threshold > 1` and `sizeAtBuild * threshold < N + M`; otherwise
the size-at-build is kept and every new point is routed down every tree. -/
theorem C6_addPoints_rebuild_iff {α β : Type} [Inhabited α] [LinearOrder β]
    (dist : α → α → β) (branching leafSize : Nat) (chooser : List Nat → List Nat)
    (fuel trees : Nat) (st : HIndex α) (newPts : List α) (t : ℚ) :
    (1 < t ∧ (st.sizeAtBuild : ℚ) * t < ((st.data.length + newPts.length : Nat) : ℚ) →
      addPoints dist branching leafSize chooser fuel trees st newPts t =
        buildIndex dist branching leafSize chooser fuel trees (st.data ++ newPts) ∧
      (buildIndex dist branching leafSize chooser fuel trees (st.data ++ newPts)).map
          HIndex.sizeAtBuild =
        (buildIndex dist branching leafSize chooser fuel trees (st.data ++ newPts)).map
          (fun _ => st.data.length + newPts.length)) ∧
    (¬ (1 < t ∧ (st.sizeAtBuild : ℚ) * t < ((st.data.length + newPts.length : Nat) : ℚ)) →
      addPoints dist branching leafSize chooser fuel trees st newPts t =
        (addPointsIncremental dist (st.data ++ newPts) branching leafSize chooser fuel
          st.forest st.data.length newPts.length).map
          (fun f2 => ⟨st.data ++ newPts, st.sizeAtBuild, f2⟩)) := by
  constructor
  · intro hcond
    constructor
    · rw [addPoints, if_pos (by rwa [List.length_append])]
    · rw [buildIndex]
      by_cases hb : branching < 2
      · simp [hb]
      · simp only [if_neg hb]
        cases buildForest dist (st.data ++ newPts) branching leafSize chooser fuel trees with
        | none => rfl
        | some forest => simp [List.length_append]
  · intro hcond
    rw [addPoints, if_neg (by rwa [List.length_append])]
    cases h : addPointsIncremental dist (st.data ++ newPts) branching leafSize chooser fuel
        st.forest st.data.length newPts.length with
    | none => rfl
    | some f2 => rfl

/-! ### C10: re-clustering an under-full leaf is the identity -/

/-- C10: when `addPointToTree` appends to a leaf whose new point count reaches
the branching factor while staying below `leaf_size`, the triggered
`computeClustering` call rebuilds the same leaf (same point records, in order,
no children); and a split into children can only happen once the leaf holds at
least `leaf_size` points. -/
theorem C10_addPointToTree_recluster_identity {α β : Type} [Inhabited α] [LinearOrder β]
    (dist : α → α → β) (data : List α) (branching leafSize : Nat)
    (chooser : List Nat → List Nat) (fuel : Nat) (pv : α)
    (ps : List (PointInfo α)) (idx : Nat)
    (hgood : ∀ p ∈ ps, p.point = data.getD p.index default)
    (htrig : branching ≤ ps.length + 1) (hlt : ps.length + 1 < leafSize) :
    addPointToTree dist data branching leafSize chooser (fuel + 1) (.mk pv .nil ps) idx =
      some (.mk pv .nil (ps ++ [⟨idx, data.getD idx default⟩])) ∧
    (∀ (fuel2 : Nat) (t2 : Node α),
      addPointToTree dist data branching leafSize chooser fuel2 (.mk pv .nil ps) idx = some t2 →
      t2.childs ≠ .nil → leafSize ≤ ps.length + 1) := by
  have hlen : (ps ++ [(⟨idx, data.getD idx default⟩ : PointInfo α)]).length = ps.length + 1 := by
    simp
  have hmapid : ((ps ++ [(⟨idx, data.getD idx default⟩ : PointInfo α)]).map PointInfo.index).map
      (fun i => (⟨i, data.getD i default⟩ : PointInfo α)) =
      ps ++ [(⟨idx, data.getD idx default⟩ : PointInfo α)] := by
    rw [List.map_map]
    have hpt : ∀ p ∈ ps ++ [(⟨idx, data.getD idx default⟩ : PointInfo α)],
        ((fun i => (⟨i, data.getD i default⟩ : PointInfo α)) ∘ PointInfo.index) p = id p := by
      intro p hp
      rcases List.mem_append.1 hp with hp | hp
      · cases p with
        | mk i pt =>
          have h2 := hgood _ hp
          simp only at h2
          simp [Function.comp, h2]
      · simp only [List.mem_singleton] at hp
        subst hp
        rfl
    rw [List.map_congr_left hpt, List.map_id]
  constructor
  · rw [addPointToTree, if_pos (by rw [hlen]; exact htrig)]
    rw [computeClustering, if_pos (by rw [List.length_map, hlen]; exact hlt)]
    rw [hmapid]
  · intro fuel2 t2 ht2 hchild
    by_contra hsz
    push_neg at hsz
    cases fuel2 with
    | zero =>
      rw [addPointToTree, if_pos (by rw [hlen]; exact htrig)] at ht2
      exact Option.noConfusion ht2
    | succ fuel3 =>
      rw [addPointToTree, if_pos (by rw [hlen]; exact htrig)] at ht2
      rw [computeClustering, if_pos (by rw [List.length_map, hlen]; omega)] at ht2
      rw [hmapid] at ht2
      have := Option.some.inj ht2
      subst this
      exact hchild rfl

/-- Witness for C6, the spec's concrete scenario: building over 100 points
and adding 101 with threshold 2.0 rebuilds and sets size-at-build to 201;
adding 50 more with threshold 2.0 does not rebuild. -/
theorem C6_addPoints_rebuild_iff_witness :
    (addPoints sqDist 2 1000 (fun _ => []) 1 1
        ⟨List.replicate 100 (0 : Int), 100, []⟩ (List.replicate 101 0) 2).map
        HIndex.sizeAtBuild = some 201 ∧
    (addPoints sqDist 2 1000 (fun _ => []) 1 1
        ⟨List.replicate 201 (0 : Int), 201, [Node.mk 0 .nil []]⟩
        (List.replicate 50 0) 2).map HIndex.sizeAtBuild = some 201 := by
  constructor
  · have h := (C6_addPoints_rebuild_iff sqDist 2 1000 (fun _ => []) 1 1
      ⟨List.replicate 100 (0 : Int), 100, []⟩ (List.replicate 101 0) 2).1
      (by constructor <;> norm_num)
    rw [h.1]
    decide
  · have h := (C6_addPoints_rebuild_iff sqDist 2 1000 (fun _ => []) 1 1
      ⟨List.replicate 201 (0 : Int), 201, [Node.mk 0 .nil []]⟩
      (List.replicate 50 0) 2).2
      (by intro hc; have := hc.2; norm_num at this)
    rw [h]
    decide

/-- Witness for C10: appending index 1 to the leaf holding index 0 (with
branching 2, leaf size 9) triggers a re-clustering that rebuilds the same
leaf with the new point appended. -/
theorem C10_addPointToTree_recluster_identity_witness :
    addPointToTree sqDist [5, 7] 2 9 (fun _ => []) 1 (.mk 0 .nil [⟨0, 5⟩]) 1 =
      some (.mk 0 .nil [⟨0, 5⟩, ⟨1, 7⟩]) := by
  have h := (C10_addPointToTree_recluster_identity sqDist [5, 7] 2 9 (fun _ => []) 0
    0 [⟨0, 5⟩] 1 (by decide) (by decide) (by decide)).1
  exact h

/-! ### C9: exactly-B children and empty-slice leaves -/

theorem shapeOKList_ofList {α : Type} (b : Nat) (l : List (Node α)) :
    NodeList.shapeOKList b (NodeList.ofList l) ↔ ∀ c ∈ l, c.shapeOK b := by
  induction l with
  | nil => simp [NodeList.ofList, NodeList.shapeOKList]
  | cons c cs ih => simp [NodeList.ofList, NodeList.shapeOKList, ih]

theorem mapM_option_mem {γ δ : Type} (f : γ → Option δ) :
    ∀ (l : List γ) (res : List δ), l.mapM f = some res →
      ∀ x ∈ res, ∃ a ∈ l, f a = some x := by
  intro l
  induction l with
  | nil =>
    intro res h x hx
    simp only [List.mapM_nil, Option.pure_def, Option.some.injEq] at h
    subst h
    exact absurd hx (List.not_mem_nil x)
  | cons a l ih =>
    intro res h x hx
    simp only [List.mapM_cons, Option.pure_def, Option.bind_eq_bind, Option.bind_eq_some] at h
    obtain ⟨y, hy, ys, hys, hres⟩ := h
    have hres' := Option.some.inj hres
    subst hres'
    rcases List.mem_cons.1 hx with rfl | hx
    · exact ⟨a, List.mem_cons_self a l, hy⟩
    · obtain ⟨a2, ha2, hfa2⟩ := ih ys hys x hx
      exact ⟨a2, List.mem_cons_of_mem a ha2, hfa2⟩

theorem mapM_option_length {γ δ : Type} (f : γ → Option δ) :
    ∀ (l : List γ) (res : List δ), l.mapM f = some res → res.length = l.length := by
  intro l
  induction l with
  | nil =>
    intro res h
    simp only [List.mapM_nil, Option.pure_def, Option.some.injEq] at h
    subst h
    rfl
  | cons a l ih =>
    intro res h
    simp only [List.mapM_cons, Option.pure_def, Option.bind_eq_bind, Option.bind_eq_some] at h
    obtain ⟨y, _, ys, hys, hres⟩ := h
    have hres' := Option.some.inj hres
    subst hres'
    simp [ih ys hys]

/-- Every tree produced by `computeClustering` satisfies the shape invariant,
and `clusterChildren` produces one well-shaped child per center. -/
theorem clusterShape_aux {α β : Type} [Inhabited α] [LinearOrder β]
    (dist : α → α → β) (data : List α) (branching leafSize : Nat)
    (chooser : List Nat → List Nat) :
    ∀ fuel : Nat,
      (∀ pv old indices t,
        computeClustering dist data branching leafSize chooser fuel pv old indices = some t →
        t.shapeOK branching) ∧
      (∀ centers i ind lab e l,
        clusterChildren dist data branching leafSize chooser fuel centers i ind lab e = some l →
        (∀ c ∈ l, c.shapeOK branching) ∧ l.length = centers.length) := by
  intro fuel
  induction fuel with
  | zero =>
    constructor
    · intro pv old indices t h
      exact Option.noConfusion h
    · intro centers i ind lab e l h
      exact Option.noConfusion h
  | succ n ih =>
    constructor
    · intro pv old indices t h
      rw [computeClustering] at h
      by_cases h1 : indices.length < leafSize
      · rw [if_pos h1] at h
        have := Option.some.inj h
        subst this
        simp [Node.shapeOK]
      · rw [if_neg h1] at h
        by_cases h2 : ((chooser indices).take branching).length < branching
        · rw [if_pos h2] at h
          have := Option.some.inj h
          subst this
          simp [Node.shapeOK]
        · rw [if_neg h2] at h
          cases hcc : clusterChildren dist data branching leafSize chooser n
              ((chooser indices).take branching) 0 indices
              (computeLabels dist data indices ((chooser indices).take branching)) 0 with
          | none => rw [hcc] at h; exact Option.noConfusion h
          | some childs =>
            rw [hcc] at h
            have := Option.some.inj h
            subst this
            obtain ⟨hall, hlen⟩ := ih.2 _ _ _ _ _ _ hcc
            cases childs with
            | nil => simp [Node.shapeOK, NodeList.ofList]
            | cons c cs =>
              have hlenB : ((chooser indices).take branching).length = branching := by
                have := List.length_take_le branching (chooser indices)
                omega
              constructor
              · show (NodeList.cons c (NodeList.ofList cs)).toList.length = branching
                rw [hlenB] at hlen
                simp only [NodeList.toList, NodeList.toList_ofList, List.length_cons]
                simpa using hlen
              · show NodeList.shapeOKList branching (NodeList.cons c (NodeList.ofList cs))
                rw [NodeList.shapeOKList]
                refine ⟨hall c (List.mem_cons_self c cs), ?_⟩
                rw [shapeOKList_ofList]
                intro c2 hc2
                exact hall c2 (List.mem_cons_of_mem c hc2)
    · intro centers i ind lab e l h
      cases centers with
      | nil =>
        rw [clusterChildren] at h
        have := Option.some.inj h
        subst this
        exact ⟨by intro c hc; exact absurd hc (List.not_mem_nil c), rfl⟩
      | cons c0 crest =>
        rw [clusterChildren] at h
        cases hpp : partPass i ind lab e with
        | mk ind2 rest2 =>
          obtain ⟨lab2, e2⟩ := rest2
          rw [hpp] at h
          dsimp only at h
          cases hcc : computeClustering dist data branching leafSize chooser n
              (data.getD c0 default) [] ((ind2.drop e).take (e2 - e)) with
          | none => rw [hcc] at h; exact Option.noConfusion h
          | some child =>
            rw [hcc] at h
            cases hrest : clusterChildren dist data branching leafSize chooser n
                crest (i + 1) ind2 lab2 e2 with
            | none => rw [hrest] at h; exact Option.noConfusion h
            | some rest =>
              rw [hrest] at h
              have := Option.some.inj h
              subst this
              obtain ⟨hall, hlen⟩ := ih.2 _ _ _ _ _ _ hrest
              refine ⟨?_, by simp [hlen]⟩
              intro c hc
              rcases List.mem_cons.1 hc with rfl | hc
              · exact ih.1 _ _ _ _ hcc
              · exact hall c hc

mutual
/-- Inserting a point preserves the shape invariant of a tree. -/
theorem addPointToTree_shape {α β : Type} [Inhabited α] [LinearOrder β]
    (dist : α → α → β) (data : List α) (branching leafSize : Nat)
    (chooser : List Nat → List Nat) (fuel : Nat) :
    ∀ (t : Node α) (idx : Nat) (t2 : Node α),
      addPointToTree dist data branching leafSize chooser fuel t idx = some t2 →
      t.shapeOK branching → t2.shapeOK branching
  | .mk pv .nil ps, idx, t2, h, _ => by
    rw [addPointToTree] at h
    by_cases h1 : branching ≤ (ps ++ [(⟨idx, data.getD idx default⟩ : PointInfo α)]).length
    · rw [if_pos h1] at h
      exact (clusterShape_aux dist data branching leafSize chooser fuel).1 _ _ _ _ h
    · rw [if_neg h1] at h
      have := Option.some.inj h
      subst this
      trivial
  | .mk pv (.cons c cs) ps, idx, t2, h, hs => by
    rw [addPointToTree] at h
    cases ha : addPointAt dist data branching leafSize chooser fuel (NodeList.cons c cs)
        (minIdx ((NodeList.cons c cs).toList.map fun ch =>
          dist ch.pivot (data.getD idx default))) idx with
    | none => rw [ha] at h; exact Option.noConfusion h
    | some cs2 =>
      rw [ha] at h
      have := Option.some.inj h
      subst this
      have hs2 : (NodeList.cons c cs).toList.length = branching ∧
          NodeList.shapeOKList branching (NodeList.cons c cs) := hs
      obtain ⟨hlen, hlist⟩ := hs2
      obtain ⟨hlen2, hlist2⟩ := addPointAt_shape dist data branching leafSize chooser fuel
        (NodeList.cons c cs) _ idx cs2 ha hlist
      cases cs2 with
      | nil =>
        exfalso
        simp [NodeList.toList] at hlen2
      | cons c2 cs2' =>
        exact (⟨hlen2.trans hlen, hlist2⟩ :
          (NodeList.cons c2 cs2').toList.length = branching ∧
            NodeList.shapeOKList branching (NodeList.cons c2 cs2'))
  termination_by t _ _ _ _ => sizeOf t

/-- Inserting a point below a child position preserves the children count and
the shape invariant of every child. -/
theorem addPointAt_shape {α β : Type} [Inhabited α] [LinearOrder β]
    (dist : α → α → β) (data : List α) (branching leafSize : Nat)
    (chooser : List Nat → List Nat) (fuel : Nat) :
    ∀ (cs : NodeList α) (k idx : Nat) (cs2 : NodeList α),
      addPointAt dist data branching leafSize chooser fuel cs k idx = some cs2 →
      NodeList.shapeOKList branching cs →
      cs2.toList.length = cs.toList.length ∧ NodeList.shapeOKList branching cs2
  | .nil, k, idx, cs2, h, _ => by
    rw [addPointAt] at h
    exact Option.noConfusion h
  | .cons c cs, 0, idx, cs2, h, hs => by
    rw [addPointAt] at h
    cases hc : addPointToTree dist data branching leafSize chooser fuel c idx with
    | none => rw [hc] at h; exact Option.noConfusion h
    | some c2 =>
      rw [hc] at h
      have := Option.some.inj h
      subst this
      have hs2 : Node.shapeOK branching c ∧ NodeList.shapeOKList branching cs := hs
      refine ⟨by simp [NodeList.toList], ?_⟩
      exact (⟨addPointToTree_shape dist data branching leafSize chooser fuel
        c idx c2 hc hs2.1, hs2.2⟩ :
        Node.shapeOK branching c2 ∧ NodeList.shapeOKList branching cs)
  | .cons c cs, k + 1, idx, cs2, h, hs => by
    rw [addPointAt] at h
    cases hc : addPointAt dist data branching leafSize chooser fuel cs k idx with
    | none => rw [hc] at h; exact Option.noConfusion h
    | some csr =>
      rw [hc] at h
      have := Option.some.inj h
      subst this
      have hs2 : Node.shapeOK branching c ∧ NodeList.shapeOKList branching cs := hs
      obtain ⟨hlen2, hlist2⟩ := addPointAt_shape dist data branching leafSize chooser fuel
        cs k idx csr hc hs2.2
      refine ⟨by simp [NodeList.toList, hlen2], ?_⟩
      exact (⟨hs2.1, hlist2⟩ :
        Node.shapeOK branching c ∧ NodeList.shapeOKList branching csr)
  termination_by cs _ _ _ _ _ => sizeOf cs
end

/-- C9: every split creates exactly `branching` children: an empty slice
becomes a leaf with an empty points list (given `0 < leaf_size`), every tree
built by `buildIndex` has only leaves and exactly-B-children inner nodes, and
point insertion preserves this shape. -/
theorem C9_exact_branching_children {α β : Type} [Inhabited α] [LinearOrder β]
    (dist : α → α → β) (data : List α) (branching leafSize : Nat)
    (chooser : List Nat → List Nat) :
    (∀ (fuel : Nat) (pv : α) (old : List (PointInfo α)), 0 < leafSize →
      computeClustering dist data branching leafSize chooser (fuel + 1) pv old [] =
        some (.mk pv .nil [])) ∧
    (∀ (fuel trees : Nat) (st : HIndex α),
      buildIndex dist branching leafSize chooser fuel trees data = some st →
      ∀ t ∈ st.forest, t.shapeOK branching) ∧
    (∀ (fuel : Nat) (t : Node α) (idx : Nat) (t2 : Node α),
      addPointToTree dist data branching leafSize chooser fuel t idx = some t2 →
      t.shapeOK branching → t2.shapeOK branching) := by
  refine ⟨?_, ?_, ?_⟩
  · intro fuel pv old hL
    rw [computeClustering, if_pos (by simpa using hL)]
    rfl
  · intro fuel trees st h t ht
    rw [buildIndex] at h
    by_cases hb : branching < 2
    · rw [if_pos hb] at h
      exact Option.noConfusion h
    · rw [if_neg hb] at h
      cases hf : buildForest dist data branching leafSize chooser fuel trees with
      | none => rw [hf] at h; exact Option.noConfusion h
      | some forest =>
        rw [hf] at h
        have := Option.some.inj h
        subst this
        obtain ⟨a, _, hcc⟩ := mapM_option_mem _ _ _ hf t ht
        exact (clusterShape_aux dist data branching leafSize chooser fuel).1 _ _ _ _ hcc
  · intro fuel t idx t2 h hs
    exact addPointToTree_shape dist data branching leafSize chooser fuel t idx t2 h hs

/-- Witness for C9: a concrete build over five integer points with branching
2 yields a well-shaped forest, the empty slice gives an empty leaf, and an
insertion keeps the shape. -/
theorem C9_exact_branching_children_witness :
    computeClustering sqDist [5, 7] 2 3 (fun _ => []) 1 (0 : Int) [] [] =
      some (.mk 0 .nil []) ∧
    (∀ t ∈ (HIndex.mk [(5 : Int), 7] 2 [Node.mk 0 .nil [⟨0, 5⟩, ⟨1, 7⟩]]).forest,
      t.shapeOK 2) ∧
    Node.shapeOK 2 (Node.mk (0 : Int) .nil [⟨0, 5⟩, ⟨1, 7⟩, ⟨2, 9⟩]) := by
  have hbuild : buildIndex sqDist 2 3 (fun _ => []) 1 1 [(5 : Int), 7] =
      some ⟨[(5 : Int), 7], 2, [Node.mk 0 .nil [⟨0, 5⟩, ⟨1, 7⟩]]⟩ := by decide
  refine ⟨?_, ?_, ?_⟩
  · exact (C9_exact_branching_children sqDist [5, 7] 2 3 (fun _ => [])).1 0 0 [] (by decide)
  · exact (C9_exact_branching_children sqDist [5, 7] 2 3 (fun _ => [])).2.1 1 1 _ hbuild
  · have hadd : addPointToTree sqDist [5, 7, 9] 2 9 (fun _ => []) 1
        (.mk 0 .nil [⟨0, 5⟩, ⟨1, 7⟩]) 2 =
        some (.mk 0 .nil [⟨0, 5⟩, ⟨1, 7⟩, ⟨2, 9⟩]) := by decide
    exact (C9_exact_branching_children sqDist [5, 7, 9] 2 9 (fun _ => [])).2.2 1 _ 2 _ hadd
      (by simp [Node.shapeOK])

/-! ### C7: budget handling at leaves -/

theorem scorePoints_heap_eq {α β : Type} [LinearOrder β] (dist : α → α → β) (q : α)
    (removed : Nat → Bool) :
    ∀ (ps : List (PointInfo α)) (s : SState α β),
      (scorePoints dist q removed ps s).heap = s.heap := by
  intro ps
  induction ps with
  | nil => intro s; rfl
  | cons p ps ih =>
    intro s
    rw [scorePoints]
    by_cases hc : p.index ∈ s.checked ∨ removed p.index
    · rw [if_pos hc]; exact ih s
    · rw [if_neg hc]; exact ih _

theorem scorePoints_events_extend {α β : Type} [LinearOrder β] (dist : α → α → β) (q : α)
    (removed : Nat → Bool) :
    ∀ (ps : List (PointInfo α)) (s : SState α β),
      ∃ l, (scorePoints dist q removed ps s).events = s.events ++ l := by
  intro ps
  induction ps with
  | nil => intro s; exact ⟨[], by simp [scorePoints]⟩
  | cons p ps ih =>
    intro s
    rw [scorePoints]
    by_cases hc : p.index ∈ s.checked ∨ removed p.index
    · rw [if_pos hc]; exact ih s
    · rw [if_neg hc]
      obtain ⟨l, hl⟩ := ih
        { res := s.res.add (dist p.point q) p.index
          checks := s.checks + 1
          heap := s.heap
          checked := insert p.index s.checked
          events := s.events ++ [(dist p.point q, p.index)] }
      exact ⟨(dist p.point q, p.index) :: l, by simpa using hl⟩

theorem scorePoints_checked_mono {α β : Type} [LinearOrder β] (dist : α → α → β) (q : α)
    (removed : Nat → Bool) :
    ∀ (ps : List (PointInfo α)) (s : SState α β),
      s.checked ⊆ (scorePoints dist q removed ps s).checked := by
  intro ps
  induction ps with
  | nil => intro s; exact Finset.Subset.refl _
  | cons p ps ih =>
    intro s
    rw [scorePoints]
    by_cases hc : p.index ∈ s.checked ∨ removed p.index
    · rw [if_pos hc]; exact ih s
    · rw [if_neg hc]
      refine Finset.Subset.trans ?_ (ih _)
      intro x hx
      exact Finset.mem_insert_of_mem hx

theorem scorePoints_offered {α β : Type} [LinearOrder β] (dist : α → α → β) (q : α)
    (removed : Nat → Bool) :
    ∀ (ps : List (PointInfo α)) (s : SState α β) (p : PointInfo α), p ∈ ps →
      p.index ∉ s.checked → removed p.index = false →
      ∃ d, (d, p.index) ∈ (scorePoints dist q removed ps s).events := by
  intro ps
  induction ps with
  | nil => intro s p hp; exact absurd hp (List.not_mem_nil p)
  | cons p0 ps ih =>
    intro s p hp hnc hnr
    rw [scorePoints]
    by_cases hc : p0.index ∈ s.checked ∨ removed p0.index
    · rw [if_pos hc]
      rcases List.mem_cons.1 hp with rfl | hp2
      · rcases hc with hc | hc
        · exact absurd hc hnc
        · rw [hnr] at hc; exact absurd hc (by simp)
      · exact ih s p hp2 hnc hnr
    · rw [if_neg hc]
      by_cases hidx : p.index = p0.index
      · obtain ⟨l, hl⟩ := scorePoints_events_extend dist q removed ps
          { res := s.res.add (dist p0.point q) p0.index
            checks := s.checks + 1
            heap := s.heap
            checked := insert p0.index s.checked
            events := s.events ++ [(dist p0.point q, p0.index)] }
        refine ⟨dist p0.point q, ?_⟩
        rw [hl, hidx]
        simp
      · rcases List.mem_cons.1 hp with rfl | hp2
        · exact absurd rfl hidx
        · refine ih _ p hp2 ?_ hnr
          simp only [Finset.mem_insert]
          intro hmem
          rcases hmem with hmem | hmem
          · exact hidx hmem
          · exact hnc hmem

/-- C7: during `findNN` at a leaf, if the checks budget is reached and the
result is full, the descent returns immediately without scoring; in every
other case the entire leaf is scored and every unchecked non-removed point is
offered to the result, with no further budget test. -/
theorem C7_findNN_leaf_budget {α β : Type} [LinearOrder β] (dist : α → α → β)
    (q : α) (maxChecks : Nat) (removed : Nat → Bool) (pv : α)
    (ps : List (PointInfo α)) (s : SState α β) :
    (maxChecks ≤ s.checks ∧ s.res.full →
      findNN dist q maxChecks removed (.mk pv .nil ps) s = s) ∧
    (¬ (maxChecks ≤ s.checks ∧ s.res.full) →
      findNN dist q maxChecks removed (.mk pv .nil ps) s =
        scorePoints dist q removed ps s ∧
      ∀ p ∈ ps, p.index ∉ s.checked → removed p.index = false →
        ∃ d, (d, p.index) ∈ (findNN dist q maxChecks removed (.mk pv .nil ps) s).events) := by
  have heq : findNN dist q maxChecks removed (.mk pv .nil ps) s =
      if maxChecks ≤ s.checks ∧ s.res.full then s
      else scorePoints dist q removed ps s := rfl
  constructor
  · intro hcond
    rw [heq, if_pos hcond]
  · intro hcond
    rw [heq, if_neg hcond]
    exact ⟨rfl, fun p hp hnc hnr => scorePoints_offered dist q removed ps s p hp hnc hnr⟩

/-- Witness for C7: on a three-point leaf, a full result with exhausted budget
returns unchanged; with the result not full, the whole leaf is scored, index 2
is offered, and the checks counter passes the budget of 1. -/
theorem C7_findNN_leaf_budget_witness :
    (findNN sqDist 0 1 (fun _ => false) (.mk 0 .nil [⟨0, -5⟩, ⟨1, 5⟩, ⟨2, 1⟩])
        ⟨⟨1, [(25, 0)]⟩, 1, [], ∅, [(25, 0)]⟩ =
      ⟨⟨1, [(25, 0)]⟩, 1, [], ∅, [(25, 0)]⟩) ∧
    (findNN sqDist 0 1 (fun _ => false) (.mk 0 .nil [⟨0, -5⟩, ⟨1, 5⟩, ⟨2, 1⟩])
        ⟨⟨5, []⟩, 1, [], ∅, []⟩ =
      scorePoints sqDist 0 (fun _ => false) [⟨0, -5⟩, ⟨1, 5⟩, ⟨2, 1⟩]
        ⟨⟨5, []⟩, 1, [], ∅, []⟩) ∧
    (∃ d, (d, 2) ∈ (findNN sqDist 0 1 (fun _ => false)
        (.mk 0 .nil [⟨0, -5⟩, ⟨1, 5⟩, ⟨2, 1⟩]) ⟨⟨5, []⟩, 1, [], ∅, []⟩).events) ∧
    (findNN sqDist 0 1 (fun _ => false) (.mk 0 .nil [⟨0, -5⟩, ⟨1, 5⟩, ⟨2, 1⟩])
        ⟨⟨5, []⟩, 1, [], ∅, []⟩).checks = 4 := by
  refine ⟨?_, ?_, ?_, ?_⟩
  · exact (C7_findNN_leaf_budget sqDist 0 1 (fun _ => false) 0
      [⟨0, -5⟩, ⟨1, 5⟩, ⟨2, 1⟩] ⟨⟨1, [(25, 0)]⟩, 1, [], ∅, [(25, 0)]⟩).1
      (by constructor
          · decide
          · show (1 : Nat) ≤ [((25 : Int), 0)].length
            decide)
  · exact ((C7_findNN_leaf_budget sqDist 0 1 (fun _ => false) 0
      [⟨0, -5⟩, ⟨1, 5⟩, ⟨2, 1⟩] ⟨⟨5, []⟩, 1, [], ∅, []⟩).2
      (by intro hc
          have := hc.2
          revert this
          show ¬ ((5 : Nat) ≤ [].length)
          decide)).1
  · exact ((C7_findNN_leaf_budget sqDist 0 1 (fun _ => false) 0
      [⟨0, -5⟩, ⟨1, 5⟩, ⟨2, 1⟩] ⟨⟨5, []⟩, 1, [], ∅, []⟩).2
      (by intro hc
          have := hc.2
          revert this
          show ¬ ((5 : Nat) ≤ [].length)
          decide)).2 ⟨2, 1⟩ (by decide) (by decide) (by decide)
  · rw [((C7_findNN_leaf_budget sqDist 0 1 (fun _ => false) 0
      [⟨0, -5⟩, ⟨1, 5⟩, ⟨2, 1⟩] ⟨⟨5, []⟩, 1, [], ∅, []⟩).2
      (by intro hc
          have := hc.2
          revert this
          show ¬ ((5 : Nat) ≤ [].length)
          decide)).1]
    decide

/-! ### C3 and C4: the per-query trace -/

theorem scorePoints_trace {α β : Type} [LinearOrder β] (dist : α → α → β) (q : α)
    (removed : Nat → Bool) :
    ∀ (ps : List (PointInfo α)) (s : SState α β),
      TraceOK removed s → TraceOK removed (scorePoints dist q removed ps s) := by
  intro ps
  induction ps with
  | nil => intro s h; exact h
  | cons p ps ih =>
    intro s h
    rw [scorePoints]
    by_cases hc : p.index ∈ s.checked ∨ removed p.index
    · rw [if_pos hc]; exact ih s h
    · rw [if_neg hc]
      push_neg at hc
      obtain ⟨hnc, hnr⟩ := hc
      have hnrb : removed p.index = false := by
        revert hnr
        cases removed p.index <;> simp
      refine ih _ ⟨?_, ?_⟩
      · show ((s.events ++ [(dist p.point q, p.index)]).map Prod.snd).Nodup
        rw [List.map_append]
        refine List.Nodup.append h.1 (by simp) ?_
        intro x hx hx2
        simp only [List.map_cons, List.map_nil, List.mem_singleton] at hx2
        subst hx2
        obtain ⟨e, he, heq⟩ := List.mem_map.1 hx
        exact hnc (heq ▸ (h.2 e he).1)
      · intro e he
        rcases List.mem_append.1 he with he | he
        · exact ⟨Finset.mem_insert_of_mem (h.2 e he).1, (h.2 e he).2⟩
        · simp only [List.mem_singleton] at he
          subst he
          exact ⟨Finset.mem_insert_self _ _, hnrb⟩

mutual
/-- One tree descent preserves the trace invariant. -/
theorem findNN_trace {α β : Type} [LinearOrder β] (dist : α → α → β) (q : α)
    (maxChecks : Nat) (removed : Nat → Bool) :
    ∀ (t : Node α) (s : SState α β),
      TraceOK removed s → TraceOK removed (findNN dist q maxChecks removed t s)
  | .mk pv .nil ps, s, h => by
    have heq : findNN dist q maxChecks removed (.mk pv .nil ps) s =
        if maxChecks ≤ s.checks ∧ s.res.full then s
        else scorePoints dist q removed ps s := rfl
    rw [heq]
    by_cases hc : maxChecks ≤ s.checks ∧ s.res.full
    · rw [if_pos hc]; exact h
    · rw [if_neg hc]; exact scorePoints_trace dist q removed ps s h
  | .mk pv (.cons c cs) ps, s, h => by
    show TraceOK removed (findNNAt dist q maxChecks removed (NodeList.cons c cs) _ _)
    exact findNNAt_trace dist q maxChecks removed (NodeList.cons c cs) _ _ h
  termination_by t _ _ => sizeOf t

/-- Descent into a child position preserves the trace invariant. -/
theorem findNNAt_trace {α β : Type} [LinearOrder β] (dist : α → α → β) (q : α)
    (maxChecks : Nat) (removed : Nat → Bool) :
    ∀ (cs : NodeList α) (k : Nat) (s : SState α β),
      TraceOK removed s → TraceOK removed (findNNAt dist q maxChecks removed cs k s)
  | .nil, _, s, h => h
  | .cons c _, 0, s, h => findNN_trace dist q maxChecks removed c s h
  | .cons _ cs, k + 1, s, h => findNNAt_trace dist q maxChecks removed cs k s h
  termination_by cs _ _ _ => sizeOf cs
end

theorem searchLoop_trace {α β : Type} [LinearOrder β] (dist : α → α → β) (q : α)
    (maxChecks : Nat) (removed : Nat → Bool) :
    ∀ (fuel : Nat) (s : SState α β),
      TraceOK removed s → TraceOK removed (searchLoop dist q maxChecks removed fuel s) := by
  intro fuel
  induction fuel with
  | zero => intro s h; exact h
  | succ n ih =>
    intro s h
    rw [searchLoop]
    cases hp : popMin s.heap with
    | none => exact h
    | some brr =>
      obtain ⟨br, rest⟩ := brr
      dsimp only
      by_cases hc : s.checks < maxChecks ∨ ¬ s.res.full
      · rw [if_pos hc]
        exact ih _ (findNN_trace dist q maxChecks removed br.1 _ h)
      · rw [if_neg hc]
        exact h

theorem findNeighbors_trace {α β : Type} [LinearOrder β] (dist : α → α → β) (q : α)
    (k maxChecks : Nat) (removed : Nat → Bool) (forest : List (Node α)) :
    TraceOK removed (findNeighbors dist q k maxChecks removed forest) := by
  rw [findNeighbors]
  apply searchLoop_trace
  have base : TraceOK removed (initState (α := α) (β := β) k) := by
    constructor
    · simp [initState]
    · intro e he
      simp [initState] at he
  generalize initState k = s0 at base ⊢
  induction forest generalizing s0 with
  | nil => exact base
  | cons t ts ih => exact ih _ (findNN_trace dist q maxChecks removed t s0 base)

/-- C3: during one `findNeighbors` call, each dataset index is offered (and
has its distance computed) at most once: the trace of offered indices has no
duplicate, across all trees and all heap-popped branches. -/
theorem C3_checked_set_law {α β : Type} [LinearOrder β] (dist : α → α → β)
    (q : α) (k maxChecks : Nat) (removed : Nat → Bool) (forest : List (Node α)) :
    (((findNeighbors dist q k maxChecks removed forest).events).map Prod.snd).Nodup :=
  (findNeighbors_trace dist q k maxChecks removed forest).1

/-- C4: an index whose removed flag is set is never offered to the result
accumulator during `findNeighbors`. -/
theorem C4_removed_respected {α β : Type} [LinearOrder β] (dist : α → α → β)
    (q : α) (k maxChecks : Nat) (removed : Nat → Bool) (forest : List (Node α))
    (i : Nat) (hrem : removed i = true) :
    ∀ d : β, (d, i) ∉ (findNeighbors dist q k maxChecks removed forest).events := by
  intro d hmem
  have h := ((findNeighbors_trace dist q k maxChecks removed forest).2 _ hmem).2
  simp only at h
  rw [hrem] at h
  exact Bool.noConfusion h

/-- Witness for C4: with index 1 removed, a concrete search over a two-point
leaf never offers index 1. -/
theorem C4_removed_respected_witness :
    ((fun j => decide (j = 1)) 1 = true) ∧
    ((25 : Int), 1) ∉ (findNeighbors sqDist 0 2 10 (fun j => decide (j = 1))
      [Node.mk 0 .nil [⟨0, -5⟩, ⟨1, 5⟩]]).events :=
  ⟨by decide,
   C4_removed_respected sqDist 0 2 10 (fun j => decide (j = 1))
     [Node.mk 0 .nil [⟨0, -5⟩, ⟨1, 5⟩]] 1 (by decide) 25⟩

/-! ### C8: loadIndex leaves are empty and searches offer nothing -/

theorem load_mono_aux {α : Type} :
    ∀ fuel : Nat,
      (∀ (s : List (α × Nat)) x, loadTree fuel s = some x →
        loadTree (fuel + 1) s = some x) ∧
      (∀ (count : Nat) (s : List (α × Nat)) x, loadChilds fuel count s = some x →
        loadChilds (fuel + 1) count s = some x) := by
  intro fuel
  induction fuel with
  | zero =>
    constructor
    · intro s x h
      exact Option.noConfusion h
    · intro count s x h
      cases count with
      | zero => exact h
      | succ c => exact Option.noConfusion h
  | succ n ih =>
    constructor
    · intro s x h
      cases s with
      | nil => exact Option.noConfusion h
      | cons hd rest =>
        obtain ⟨pv, c⟩ := hd
        rw [loadTree] at h ⊢
        by_cases hc : c = 0
        · rwa [if_pos hc] at h ⊢
        · rw [if_neg hc] at h ⊢
          cases hcs : loadChilds n c rest with
          | none => rw [hcs] at h; exact Option.noConfusion h
          | some csr =>
            rw [hcs] at h
            rw [ih.2 c rest csr hcs]
            exact h
    · intro count s x h
      cases count with
      | zero => exact h
      | succ c =>
        rw [loadChilds] at h ⊢
        cases ht : loadTree n s with
        | none => rw [ht] at h; exact Option.noConfusion h
        | some tr =>
          obtain ⟨t1, r1⟩ := tr
          rw [ht] at h
          rw [ih.1 s (t1, r1) ht]
          dsimp only at h ⊢
          cases hcs : loadChilds n c r1 with
          | none => rw [hcs] at h; exact Option.noConfusion h
          | some csr =>
            rw [hcs] at h
            rw [ih.2 c r1 csr hcs]
            exact h

theorem loadTree_mono {α : Type} {f f2 : Nat} (hle : f ≤ f2)
    {s : List (α × Nat)} {x : Node α × List (α × Nat)}
    (h : loadTree f s = some x) : loadTree f2 s = some x := by
  induction f2 with
  | zero =>
    have : f = 0 := Nat.le_zero.1 hle
    subst this
    exact h
  | succ n ih =>
    rcases Nat.lt_or_ge f (n + 1) with hlt | hge
    · exact (load_mono_aux n).1 s x (ih (Nat.lt_succ_iff.1 hlt))
    · have : f = n + 1 := Nat.le_antisymm hle hge
      subst this
      exact h

theorem loadChilds_mono {α : Type} {f f2 : Nat} (hle : f ≤ f2) {count : Nat}
    {s : List (α × Nat)} {x : NodeList α × List (α × Nat)}
    (h : loadChilds f count s = some x) : loadChilds f2 count s = some x := by
  induction f2 with
  | zero =>
    have : f = 0 := Nat.le_zero.1 hle
    subst this
    exact h
  | succ n ih =>
    rcases Nat.lt_or_ge f (n + 1) with hlt | hge
    · exact (load_mono_aux n).2 count s x (ih (Nat.lt_succ_iff.1 hlt))
    · have : f = n + 1 := Nat.le_antisymm hle hge
      subst this
      exact h

theorem toList_length_zero {α : Type} (cs : NodeList α)
    (h : cs.toList.length = 0) : cs = .nil := by
  cases cs with
  | nil => rfl
  | cons c cs => simp [NodeList.toList] at h

mutual
/-- Parsing the serialized form of a tree succeeds and yields the tree with
every points list dropped. -/
theorem loadTree_saveTree {α : Type} :
    ∀ (t : Node α) (rest : List (α × Nat)),
      loadTree t.loadFuel (saveTree t ++ rest) = some (t.stripPoints, rest)
  | .mk pv cs ps, rest => by
    show loadTree (NodeList.loadFuelList cs + 1)
        (((pv, cs.toList.length) :: saveChildsList cs) ++ rest) = _
    rw [List.cons_append, loadTree]
    by_cases hc : cs.toList.length = 0
    · have hnil := toList_length_zero cs hc
      subst hnil
      rw [if_pos hc]
      rfl
    · rw [if_neg hc]
      rw [loadChilds_saveChilds cs rest]
      rfl
  termination_by t _ => sizeOf t

/-- Parsing a serialized children list succeeds and strips every child. -/
theorem loadChilds_saveChilds {α : Type} :
    ∀ (cs : NodeList α) (rest : List (α × Nat)),
      loadChilds cs.loadFuelList cs.toList.length (saveChildsList cs ++ rest) =
        some (cs.stripList, rest)
  | .nil, rest => by
    show loadChilds 1 0 (([] : List (α × Nat)) ++ rest) = _
    rw [loadChilds]
    rfl
  | .cons c cs, rest => by
    show loadChilds (c.loadFuel + NodeList.loadFuelList cs + 1)
        (cs.toList.length + 1) ((saveTree c ++ saveChildsList cs) ++ rest) = _
    rw [loadChilds, List.append_assoc]
    rw [loadTree_mono (f := c.loadFuel)
      (by omega) (loadTree_saveTree c (saveChildsList cs ++ rest))]
    dsimp only
    rw [loadChilds_mono (f := NodeList.loadFuelList cs)
      (by omega) (loadChilds_saveChilds cs rest)]
    rfl
  termination_by cs _ => sizeOf cs
end

theorem load_leafInfos_empty_aux {α : Type} :
    ∀ fuel : Nat,
      (∀ (s : List (α × Nat)) (t : Node α) rest, loadTree fuel s = some (t, rest) →
        t.leafInfos = []) ∧
      (∀ (count : Nat) (s : List (α × Nat)) (cs : NodeList α) rest,
        loadChilds fuel count s = some (cs, rest) → cs.leafInfosList = []) := by
  intro fuel
  induction fuel with
  | zero =>
    constructor
    · intro s t rest h
      exact Option.noConfusion h
    · intro count s cs rest h
      cases count with
      | zero =>
        rw [loadChilds] at h
        have := Option.some.inj h
        have hcs : cs = .nil := (congrArg Prod.fst this).symm
        subst hcs
        rfl
      | succ c => exact Option.noConfusion h
  | succ n ih =>
    constructor
    · intro s t rest h
      cases s with
      | nil => exact Option.noConfusion h
      | cons hd rest2 =>
        obtain ⟨pv, c⟩ := hd
        rw [loadTree] at h
        by_cases hc : c = 0
        · rw [if_pos hc] at h
          have := Option.some.inj h
          have ht : t = .mk pv .nil [] := (congrArg Prod.fst this).symm
          subst ht
          rfl
        · rw [if_neg hc] at h
          cases hcs : loadChilds n c rest2 with
          | none => rw [hcs] at h; exact Option.noConfusion h
          | some csr =>
            obtain ⟨cs1, r1⟩ := csr
            rw [hcs] at h
            have := Option.some.inj h
            have ht : t = .mk pv cs1 [] := (congrArg Prod.fst this).symm
            subst ht
            have hempty := ih.2 c rest2 cs1 r1 hcs
            cases cs1 with
            | nil => rfl
            | cons c1 cs1' =>
              show NodeList.leafInfosList (NodeList.cons c1 cs1') = []
              exact hempty
    · intro count s cs rest h
      cases count with
      | zero =>
        rw [loadChilds] at h
        have := Option.some.inj h
        have hcs : cs = .nil := (congrArg Prod.fst this).symm
        subst hcs
        rfl
      | succ c =>
        rw [loadChilds] at h
        cases ht : loadTree n s with
        | none => rw [ht] at h; exact Option.noConfusion h
        | some tr =>
          obtain ⟨t1, r1⟩ := tr
          rw [ht] at h
          dsimp only at h
          cases hcs : loadChilds n c r1 with
          | none => rw [hcs] at h; exact Option.noConfusion h
          | some csr =>
            obtain ⟨cs1, r2⟩ := csr
            rw [hcs] at h
            have := Option.some.inj h
            have hcs2 : cs = .cons t1 cs1 := (congrArg Prod.fst this).symm
            subst hcs2
            show t1.leafInfos ++ cs1.leafInfosList = []
            rw [ih.1 s t1 r1 ht, ih.2 c r1 cs1 r2 hcs]
            rfl

theorem minIdxAux_bound {β : Type} [LinearOrder β] :
    ∀ (ds : List β) (bd : β) (i best : Nat), best < i →
      minIdxAux ds bd i best < i + ds.length := by
  intro ds
  induction ds with
  | nil =>
    intro bd i best h
    simpa [minIdxAux] using Nat.lt_of_lt_of_le h (Nat.le_add_right i 0)
  | cons d ds ih =>
    intro bd i best h
    rw [minIdxAux]
    have hl : (d :: ds).length = ds.length + 1 := rfl
    by_cases hlt : d < bd
    · rw [if_pos hlt]
      have := ih d (i + 1) i (Nat.lt_succ_self i)
      omega
    · rw [if_neg hlt]
      have := ih bd (i + 1) best (Nat.lt_succ_of_lt h)
      omega

theorem minIdx_lt_length {β : Type} [LinearOrder β] (l : List β) (hne : l ≠ []) :
    minIdx l < l.length := by
  cases l with
  | nil => exact absurd rfl hne
  | cons d ds =>
    rw [minIdx]
    have := minIdxAux_bound ds d 1 0 Nat.one_pos
    simpa [Nat.add_comm] using this

/-- What `popMin` returns: an entry of the queue at some position, and the
queue with that position removed. -/
theorem popMin_spec {α β : Type} [LinearOrder β] (h : List (Node α × β))
    (br : Node α × β) (rest : List (Node α × β)) (hp : popMin h = some (br, rest)) :
    ∃ j, ∃ hj : j < h.length, br = h.get ⟨j, hj⟩ ∧ rest = h.eraseIdx j := by
  cases hh : h with
  | nil => rw [hh] at hp; exact Option.noConfusion hp
  | cons b0 bs =>
    rw [hh] at hp
    rw [popMin] at hp
    simp only [Option.some.injEq, Prod.mk.injEq] at hp
    have hj : minIdx ((b0 :: bs).map Prod.snd) < (b0 :: bs).length := by
      have := minIdx_lt_length ((b0 :: bs).map Prod.snd) (by simp)
      simpa using this
    refine ⟨minIdx ((b0 :: bs).map Prod.snd), hj, ?_, hp.2.symm⟩
    rw [← hp.1]
    rw [List.getD_eq_getElem?_getD, List.getElem?_eq_getElem hj]
    rfl

theorem leafInfosList_eq_nil_mem {α : Type} :
    ∀ (cs : NodeList α), cs.leafInfosList = [] →
      ∀ ch ∈ cs.toList, ch.leafInfos = []
  | .nil, _, ch, hch => absurd hch (List.not_mem_nil ch)
  | .cons c cs, h, ch, hch => by
    have h2 : c.leafInfos ++ cs.leafInfosList = [] := h
    rw [List.append_eq_nil] at h2
    rcases List.mem_cons.1 hch with rfl | hch
    · exact h2.1
    · exact leafInfosList_eq_nil_mem cs h2.2 ch hch
  termination_by cs _ _ _ => sizeOf cs

mutual
/-- A descent of a tree whose leaves are all empty only grows the heap (with
branches whose leaves are again all empty); the result, the counters and the
trace are untouched. -/
theorem findNN_empty {α β : Type} [LinearOrder β] (dist : α → α → β) (q : α)
    (maxChecks : Nat) (removed : Nat → Bool) :
    ∀ (t : Node α) (s : SState α β), t.leafInfos = [] →
      (∀ b ∈ s.heap, (b.1 : Node α).leafInfos = []) →
      ∃ h2, findNN dist q maxChecks removed t s = { s with heap := h2 } ∧
        ∀ b ∈ h2, (b.1 : Node α).leafInfos = []
  | .mk pv .nil ps, s, hempty, hheap => by
    have hps : ps = [] := hempty
    subst hps
    have heq : findNN dist q maxChecks removed (.mk pv .nil []) s =
        if maxChecks ≤ s.checks ∧ s.res.full then s
        else scorePoints dist q removed [] s := rfl
    refine ⟨s.heap, ?_, hheap⟩
    rw [heq]
    by_cases hc : maxChecks ≤ s.checks ∧ s.res.full
    · rw [if_pos hc]
    · rw [if_neg hc]
      rfl
  | .mk pv (.cons c cs) ps, s, hempty, hheap => by
    have hlist : NodeList.leafInfosList (NodeList.cons c cs) = [] := hempty
    have hmem := leafInfosList_eq_nil_mem _ hlist
    have hstep :
        ∀ b ∈ s.heap ++ (((NodeList.cons c cs).toList.zip
            ((NodeList.cons c cs).toList.map fun ch => dist q ch.pivot)).eraseIdx
            (minIdx ((NodeList.cons c cs).toList.map fun ch => dist q ch.pivot))),
          (b.1 : Node α).leafInfos = [] := by
      intro b hb
      rcases List.mem_append.1 hb with hb | hb
      · exact hheap b hb
      · have hzip := (List.eraseIdx_sublist _ _).mem hb
        exact hmem _ (List.of_mem_zip hzip).1
    obtain ⟨h2, hfe, hall⟩ := findNNAt_empty dist q maxChecks removed
      (NodeList.cons c cs)
      (minIdx ((NodeList.cons c cs).toList.map fun ch => dist q ch.pivot))
      { s with heap := s.heap ++ (((NodeList.cons c cs).toList.zip
          ((NodeList.cons c cs).toList.map fun ch => dist q ch.pivot)).eraseIdx
          (minIdx ((NodeList.cons c cs).toList.map fun ch => dist q ch.pivot))) }
      hmem hstep
    exact ⟨h2, hfe, hall⟩
  termination_by t _ _ _ => sizeOf t

/-- The child-position descent under all-empty leaves. -/
theorem findNNAt_empty {α β : Type} [LinearOrder β] (dist : α → α → β) (q : α)
    (maxChecks : Nat) (removed : Nat → Bool) :
    ∀ (cs : NodeList α) (k : Nat) (s : SState α β),
      (∀ ch ∈ cs.toList, ch.leafInfos = []) →
      (∀ b ∈ s.heap, (b.1 : Node α).leafInfos = []) →
      ∃ h2, findNNAt dist q maxChecks removed cs k s = { s with heap := h2 } ∧
        ∀ b ∈ h2, (b.1 : Node α).leafInfos = []
  | .nil, _, s, _, hheap => ⟨s.heap, rfl, hheap⟩
  | .cons c cs, 0, s, hmem, hheap =>
    findNN_empty dist q maxChecks removed c s
      (hmem c (List.mem_cons_self c cs.toList)) hheap
  | .cons c cs, k + 1, s, hmem, hheap =>
    findNNAt_empty dist q maxChecks removed cs k s
      (fun ch hch => hmem ch (List.mem_cons_of_mem c hch)) hheap
  termination_by cs _ _ _ _ => sizeOf cs
end

theorem searchLoop_empty {α β : Type} [LinearOrder β] (dist : α → α → β) (q : α)
    (maxChecks : Nat) (removed : Nat → Bool) :
    ∀ (fuel : Nat) (s : SState α β),
      (∀ b ∈ s.heap, (b.1 : Node α).leafInfos = []) →
      ∃ h2, searchLoop dist q maxChecks removed fuel s = { s with heap := h2 } := by
  intro fuel
  induction fuel with
  | zero => intro s _; exact ⟨s.heap, rfl⟩
  | succ n ih =>
    intro s hheap
    rw [searchLoop]
    cases hp : popMin s.heap with
    | none => exact ⟨s.heap, rfl⟩
    | some brr =>
      obtain ⟨br, rest⟩ := brr
      dsimp only
      obtain ⟨j, hj, hbr, hrest⟩ := popMin_spec s.heap br rest hp
      have hbrmem : br ∈ s.heap := hbr ▸ List.get_mem s.heap j hj
      have hrestmem : ∀ b ∈ rest, b ∈ s.heap := by
        intro b hb
        rw [hrest] at hb
        exact (List.eraseIdx_sublist _ _).mem hb
      by_cases hc : s.checks < maxChecks ∨ ¬ s.res.full
      · rw [if_pos hc]
        obtain ⟨h2, hfe, hall⟩ := findNN_empty dist q maxChecks removed br.1
          { s with heap := rest } (hheap br hbrmem)
          (fun b hb => hheap b (hrestmem b hb))
        obtain ⟨h3, hloop⟩ := ih
          (findNN dist q maxChecks removed br.1 { s with heap := rest })
          (by rw [hfe]; exact hall)
        refine ⟨h3, ?_⟩
        rw [hloop, hfe]
      · rw [if_neg hc]
        exact ⟨rest, rfl⟩

/-- A search over a forest whose leaves are all empty offers nothing: the
events trace is empty and the result accumulator stays empty. -/
theorem findNeighbors_empty {α β : Type} [LinearOrder β] (dist : α → α → β)
    (q : α) (k maxChecks : Nat) (removed : Nat → Bool) (forest : List (Node α))
    (hall : ∀ t ∈ forest, Node.leafInfos t = []) :
    (findNeighbors dist q k maxChecks removed forest).events = [] ∧
    (findNeighbors dist q k maxChecks removed forest).res.pairs = [] := by
  have hfold : ∀ (ts : List (Node α)), (∀ t ∈ ts, Node.leafInfos t = []) →
      ∀ (s0 : SState α β), (∀ b ∈ s0.heap, (b.1 : Node α).leafInfos = []) →
      ∃ h1, ts.foldl (fun s t => findNN dist q maxChecks removed t s) s0 =
        { s0 with heap := h1 } ∧ ∀ b ∈ h1, (b.1 : Node α).leafInfos = [] := by
    intro ts
    induction ts with
    | nil => intro _ s0 hh; exact ⟨s0.heap, rfl, hh⟩
    | cons t ts ih =>
      intro hts s0 hh
      obtain ⟨h2, hfe, hall2⟩ := findNN_empty dist q maxChecks removed t s0
        (hts t (List.mem_cons_self t ts)) hh
      obtain ⟨h1, hfold1, hall1⟩ := ih (fun u hu => hts u (List.mem_cons_of_mem t hu))
        (findNN dist q maxChecks removed t s0) (by rw [hfe]; exact hall2)
      refine ⟨h1, ?_, hall1⟩
      show List.foldl _ (findNN dist q maxChecks removed t s0) ts = _
      rw [hfold1, hfe]
  obtain ⟨h1, hfold1, hall1⟩ := hfold forest hall (initState k)
    (by intro b hb; simp [initState] at hb)
  rw [findNeighbors, hfold1]
  obtain ⟨h2, hloop⟩ := searchLoop_empty dist q maxChecks removed
    (forestWeight forest) { initState (α := α) (β := β) k with heap := h1 } hall1
  rw [hloop]
  exact ⟨rfl, rfl⟩

/-- C8: a tree read back by `load_tree` (in particular from the output of
`save_tree`, which serializes only pivots and child counts) has an empty
points list at every leaf, so a `findNeighbors` call on an index restored
only via `loadIndex` offers no point to the result accumulator. -/
theorem C8_load_empty_leaves {α β : Type} [LinearOrder β] :
    (∀ (t : Node α) (rest : List (α × Nat)),
      loadTree t.loadFuel (saveTree t ++ rest) = some (t.stripPoints, rest)) ∧
    (∀ (fuel : Nat) (stream : List (α × Nat)) (t : Node α)
        (rest : List (α × Nat)),
      loadTree fuel stream = some (t, rest) → t.leafInfos = []) ∧
    (∀ (forest : List (Node α)), (∀ t ∈ forest, Node.leafInfos t = []) →
      ∀ (dist : α → α → β) (q : α) (k maxChecks : Nat) (removed : Nat → Bool),
        (findNeighbors dist q k maxChecks removed forest).events = [] ∧
        (findNeighbors dist q k maxChecks removed forest).res.pairs = []) := by
  refine ⟨loadTree_saveTree, ?_, ?_⟩
  · intro fuel stream t rest h
    exact (load_leafInfos_empty_aux fuel).1 stream t rest h
  · intro forest hall dist q k maxChecks removed
    exact findNeighbors_empty dist q k maxChecks removed forest hall

/-- Witness for C8: a concrete one-child tree round-trips through save and
load into its stripped form, whose leaves are empty, and a search over the
loaded tree offers nothing. -/
theorem C8_load_empty_leaves_witness :
    loadTree (Node.mk (0 : Int) (.cons (.mk 1 .nil [⟨0, 5⟩]) .nil) []).loadFuel
        (saveTree (Node.mk (0 : Int) (.cons (.mk 1 .nil [⟨0, 5⟩]) .nil) []) ++ []) =
      some ((Node.mk (0 : Int) (.cons (.mk 1 .nil [⟨0, 5⟩]) .nil) []).stripPoints, []) ∧
    (Node.mk (0 : Int) (.cons (.mk 1 .nil [⟨0, 5⟩]) .nil) []).stripPoints.leafInfos = [] ∧
    (findNeighbors sqDist 0 1 10 (fun _ => false)
      [(Node.mk (0 : Int) (.cons (.mk 1 .nil [⟨0, 5⟩]) .nil) []).stripPoints]).events = [] := by
  have h1 := (C8_load_empty_leaves (α := Int) (β := Int)).1
    (Node.mk (0 : Int) (.cons (.mk 1 .nil [⟨0, 5⟩]) .nil) []) []
  have h2 := (C8_load_empty_leaves (α := Int) (β := Int)).2.1 _ _ _ _ h1
  have h3 := ((C8_load_empty_leaves (α := Int) (β := Int)).2.2
    [(Node.mk (0 : Int) (.cons (.mk 1 .nil [⟨0, 5⟩]) .nil) []).stripPoints]
    (by intro t ht
        rcases List.mem_singleton.1 ht with rfl
        exact h2)
    sqDist 0 1 10 (fun _ => false)).1
  exact ⟨h1, h2, h3⟩

/-! ### The in-place partition of computeClustering: list-level helpers -/

theorem listSwap_length {γ : Type} [Inhabited γ] (l : List γ) (a b : Nat) :
    (listSwap l a b).length = l.length := by
  simp [listSwap]

theorem getElem?_listSwap_ne {γ : Type} [Inhabited γ] (l : List γ) (a b m : Nat)
    (hma : m ≠ a) (hmb : m ≠ b) : (listSwap l a b)[m]? = l[m]? := by
  unfold listSwap
  rw [List.getElem?_set_ne (Ne.symm hmb), List.getElem?_set_ne (Ne.symm hma)]

theorem getElem?_listSwap {γ : Type} [Inhabited γ] (l : List γ) (a b m : Nat)
    (ha : a < l.length) (hb : b < l.length) :
    (listSwap l a b)[m]? =
      if m = b then l[a]? else if m = a then l[b]? else l[m]? := by
  by_cases hmb : m = b
  · subst hmb
    rw [if_pos rfl]
    unfold listSwap
    rw [List.getElem?_set_eq_of_lt _ (by simpa using hb)]
    rw [List.getD_eq_getElem?_getD, List.getElem?_eq_getElem ha]
    rfl
  · rw [if_neg hmb]
    by_cases hma : m = a
    · subst hma
      rw [if_pos rfl]
      unfold listSwap
      rw [List.getElem?_set_ne (Ne.symm hmb), List.getElem?_set_eq_of_lt _ ha]
      rw [List.getD_eq_getElem?_getD, List.getElem?_eq_getElem hb]
      rfl
    · rw [if_neg hma]
      exact getElem?_listSwap_ne l a b m hma hmb

theorem getD_listSwap {γ : Type} [Inhabited γ] (l : List γ) (a b m : Nat)
    (ha : a < l.length) (hb : b < l.length) (d : γ) :
    (listSwap l a b).getD m d =
      if m = b then l.getD a d else if m = a then l.getD b d else l.getD m d := by
  rw [List.getD_eq_getElem?_getD, getElem?_listSwap l a b m ha hb]
  by_cases hmb : m = b
  · rw [if_pos hmb, if_pos hmb, List.getD_eq_getElem?_getD]
  · rw [if_neg hmb, if_neg hmb]
    by_cases hma : m = a
    · rw [if_pos hma, if_pos hma, List.getD_eq_getElem?_getD]
    · rw [if_neg hma, if_neg hma, List.getD_eq_getElem?_getD]

theorem listSwap_take {γ : Type} [Inhabited γ] (l : List γ) (a b e0 : Nat)
    (hae : e0 ≤ a) (hbe : e0 ≤ b) :
    (listSwap l a b).take e0 = l.take e0 := by
  apply List.ext_getElem?
  intro m
  rw [List.getElem?_take, List.getElem?_take]
  by_cases hm : m < e0
  · rw [if_pos hm, if_pos hm]
    exact getElem?_listSwap_ne l a b m (by omega) (by omega)
  · rw [if_neg hm, if_neg hm]

theorem getElem?_zip' {γ δ : Type} (x : List γ) (y : List δ) (m : Nat) :
    (x.zip y)[m]? = x[m]?.bind fun a => y[m]?.map (Prod.mk a) := by
  simp only [List.zip, List.getElem?_zipWith']
  cases x[m]? <;> cases y[m]? <;> rfl

theorem zip_take' {γ δ : Type} (x : List γ) (y : List δ) (k : Nat) :
    (x.zip y).take k = (x.take k).zip (y.take k) := by
  apply List.ext_getElem?
  intro m
  rw [List.getElem?_take, getElem?_zip', getElem?_zip', List.getElem?_take,
    List.getElem?_take]
  by_cases hm : m < k
  · rw [if_pos hm, if_pos hm, if_pos hm]
  · rw [if_neg hm, if_neg hm, if_neg hm]
    rfl

theorem zip_drop' {γ δ : Type} (x : List γ) (y : List δ) (k : Nat) :
    (x.zip y).drop k = (x.drop k).zip (y.drop k) := by
  apply List.ext_getElem?
  intro m
  rw [getElem?_zip']
  by_cases hx : k + m < x.length
  · rw [List.getElem?_drop, getElem?_zip', List.getElem?_drop, List.getElem?_drop]
  · rw [List.getElem?_drop, getElem?_zip', List.getElem?_drop, List.getElem?_drop]

theorem zip_listSwap {γ δ : Type} [Inhabited γ] [Inhabited δ]
    (x : List γ) (y : List δ) (a b : Nat) (hlen : y.length = x.length)
    (ha : a < x.length) (hb : b < x.length) :
    (listSwap x a b).zip (listSwap y a b) = listSwap (x.zip y) a b := by
  have hz : (x.zip y).length = x.length := by
    rw [List.length_zip, hlen, Nat.min_self]
  apply List.ext_getElem?
  intro m
  rw [getElem?_zip',
    getElem?_listSwap x a b m ha hb,
    getElem?_listSwap y a b m (hlen ▸ ha) (hlen ▸ hb),
    getElem?_listSwap (x.zip y) a b m (hz ▸ ha) (hz ▸ hb),
    getElem?_zip', getElem?_zip', getElem?_zip']
  by_cases hmb : m = b
  · rw [if_pos hmb, if_pos hmb, if_pos hmb]
  · rw [if_neg hmb, if_neg hmb, if_neg hmb]
    by_cases hma : m = a
    · rw [if_pos hma, if_pos hma, if_pos hma]
    · rw [if_neg hma, if_neg hma, if_neg hma]

theorem getD_cons_set_perm {γ : Type} :
    ∀ (xs : List γ) (m : Nat) (x d : γ), m < xs.length →
      List.Perm ((xs.getD m d) :: xs.set m x) (x :: xs) := by
  intro xs
  induction xs with
  | nil =>
    intro m x d hm
    simp at hm
  | cons y ys ih =>
    intro m x d hm
    cases m with
    | zero =>
      simp only [List.getD_cons_zero, List.set_cons_zero]
      exact List.Perm.swap x y ys
    | succ m =>
      simp only [List.getD_cons_succ, List.set_cons_succ]
      have h1 : List.Perm ((ys.getD m d) :: y :: ys.set m x)
          (y :: (ys.getD m d) :: ys.set m x) := List.Perm.swap y (ys.getD m d) _
      refine h1.trans ?_
      have h2 := (ih m x d (by simpa using hm)).cons y
      refine h2.trans ?_
      exact List.Perm.swap x y ys

theorem listSwap_perm {γ : Type} [Inhabited γ] :
    ∀ (l : List γ) (a b : Nat), a < l.length → b < l.length →
      List.Perm (listSwap l a b) l := by
  intro l
  induction l with
  | nil =>
    intro a b ha
    simp at ha
  | cons x xs ih =>
    intro a b ha hb
    cases a with
    | zero =>
      cases b with
      | zero =>
        simp [listSwap]
      | succ m =>
        have hswap : listSwap (x :: xs) 0 (m + 1) =
            (xs.getD m default) :: xs.set m x := by
          simp [listSwap]
        rw [hswap]
        exact getD_cons_set_perm xs m x default (by simpa using hb)
    | succ n =>
      cases b with
      | zero =>
        have hswap : listSwap (x :: xs) (n + 1) 0 =
            (xs.getD n default) :: xs.set n x := by
          simp [listSwap]
        rw [hswap]
        exact getD_cons_set_perm xs n x default (by simpa using ha)
      | succ m =>
        have hswap : listSwap (x :: xs) (n + 1) (m + 1) = x :: listSwap xs n m := by
          simp [listSwap]
        rw [hswap]
        exact (ih n m (by simpa using ha) (by simpa using hb)).cons x

theorem forall_mem_segment {γ : Type} [Inhabited γ] (l : List γ) (a b : Nat)
    (P : γ → Prop)
    (h : ∀ m, a ≤ m → m < b → m < l.length → P (l.getD m default)) :
    ∀ x ∈ (l.drop a).take (b - a), P x := by
  intro x hx
  obtain ⟨j, hj, hgx⟩ := List.mem_iff_getElem.1 hx
  have hj2 : j < b - a := by
    have := hj
    simp only [List.length_take, List.length_drop] at this
    omega
  have hj3 : a + j < l.length := by
    have := hj
    simp only [List.length_take, List.length_drop] at this
    omega
  have : ((l.drop a).take (b - a))[j] = l[a + j] := by
    rw [List.getElem_take, List.getElem_drop]
  rw [this] at hgx
  have := h (a + j) (Nat.le_add_right a j) (by omega) hj3
  rw [List.getD_eq_getElem?_getD, List.getElem?_eq_getElem hj3] at this
  simpa [hgx] using this

theorem forall_mem_drop {γ : Type} [Inhabited γ] (l : List γ) (b : Nat)
    (P : γ → Prop) (h : ∀ m, b ≤ m → m < l.length → P (l.getD m default)) :
    ∀ x ∈ l.drop b, P x := by
  intro x hx
  obtain ⟨j, hj, hgx⟩ := List.mem_iff_getElem.1 hx
  have hj3 : b + j < l.length := by
    have := hj
    simp only [List.length_drop] at this
    omega
  have : (l.drop b)[j] = l[b + j] := List.getElem_drop ..
  rw [this] at hgx
  have := h (b + j) (Nat.le_add_right b j) hj3
  rw [List.getD_eq_getElem?_getD, List.getElem?_eq_getElem hj3] at this
  simpa [hgx] using this

/-- Invariants of one partition scan (`passAux`) for label `i`, starting from
prefix boundary `e0`: the scan preserves lengths, the prefix up to the entry
counter `e`, the already-grouped regions, and the multiset of (index, label)
pairs; at the end the region `[e0, end)` holds exactly label `i` and the tail
holds labels strictly above `i`. -/
theorem passAux_spec (i e0 n : Nat) :
    ∀ (rem : Nat) (ind lab : List Nat) (e j : Nat),
      ind.length = n → lab.length = n → rem + j = n →
      e0 ≤ e → e ≤ max e0 j → e ≤ n →
      (∀ m, m < e0 → lab.getD m 0 < i) →
      (∀ m, e0 ≤ m → m < e → lab.getD m 0 = i) →
      (∀ m, e ≤ m → m < j → lab.getD m 0 ≠ i) →
      (∀ m, e ≤ m → m < n → i ≤ lab.getD m 0) →
      (passAux i rem ind lab e j).1.length = n ∧
      (passAux i rem ind lab e j).2.1.length = n ∧
      e ≤ (passAux i rem ind lab e j).2.2 ∧
      (passAux i rem ind lab e j).2.2 ≤ n ∧
      (passAux i rem ind lab e j).1.take e = ind.take e ∧
      (passAux i rem ind lab e j).2.1.take e = lab.take e ∧
      (∀ m, m < e0 → (passAux i rem ind lab e j).2.1.getD m 0 < i) ∧
      (∀ m, e0 ≤ m → m < (passAux i rem ind lab e j).2.2 →
        (passAux i rem ind lab e j).2.1.getD m 0 = i) ∧
      (∀ m, (passAux i rem ind lab e j).2.2 ≤ m → m < n →
        i ≤ (passAux i rem ind lab e j).2.1.getD m 0 ∧
        (passAux i rem ind lab e j).2.1.getD m 0 ≠ i) ∧
      List.Perm
        ((passAux i rem ind lab e j).1.zip (passAux i rem ind lab e j).2.1)
        (ind.zip lab) := by
  intro rem
  induction rem with
  | zero =>
    intro ind lab e j hil hll hrem he0 hemax hen hprelt hmid hscan hsge
    have hj : j = n := by omega
    subst hj
    rw [passAux]
    refine ⟨hil, hll, Nat.le_refl e, hen, rfl, rfl, hprelt, hmid, ?_, List.Perm.refl _⟩
    intro m hm1 hm2
    exact ⟨hsge m hm1 hm2, hscan m hm1 hm2⟩
  | succ rem ih =>
    intro ind lab e j hil hll hrem he0 hemax hen hprelt hmid hscan hsge
    have hjn : j < n := by omega
    have hjlen : j < ind.length := by omega
    have hjlab : j < lab.length := by omega
    rw [passAux]
    by_cases hcase : lab.getD j 0 = i
    · rw [if_pos hcase]
      have hej : e ≤ j := by
        by_contra hlt
        push_neg at hlt
        have hee0 : e = e0 := by omega
        have := hprelt j (by omega)
        omega
      have helen : e < n := by omega
      have helab : e < lab.length := by omega
      have heind : e < ind.length := by omega
      have hswlab : ∀ m d, (listSwap lab j e).getD m d =
          if m = e then lab.getD j d else if m = j then lab.getD e d
          else lab.getD m d :=
        fun m d => getD_listSwap lab j e m hjlab helab d
      obtain ⟨c1, c2, c3, c4, c5, c6, c7, c8, c9, c10⟩ :=
        ih (listSwap ind j e) (listSwap lab j e) (e + 1) (j + 1)
          (by rw [listSwap_length]; exact hil)
          (by rw [listSwap_length]; exact hll)
          (by omega)
          (by omega)
          (by omega)
          (by omega)
          (by
            intro m hm
            rw [hswlab m 0, if_neg (by omega), if_neg (by omega)]
            exact hprelt m hm)
          (by
            intro m hm1 hm2
            rw [hswlab m 0]
            by_cases hme : m = e
            · rw [if_pos hme]
              exact hcase
            · rw [if_neg hme, if_neg (by omega)]
              exact hmid m hm1 (by omega))
          (by
            intro m hm1 hm2
            rw [hswlab m 0]
            by_cases hme : m = e
            · omega
            · rw [if_neg hme]
              by_cases hmj : m = j
              · subst hmj
                rw [if_pos rfl]
                exact hscan e (Nat.le_refl e) (by omega)
              · rw [if_neg hmj]
                exact hscan m (by omega) (by omega))
          (by
            intro m hm1 hm2
            rw [hswlab m 0]
            rw [if_neg (by omega)]
            by_cases hmj : m = j
            · rw [if_pos hmj]
              exact hsge e (Nat.le_refl e) (by omega)
            · rw [if_neg hmj]
              exact hsge m (by omega) hm2)
      refine ⟨c1, c2, by omega, c4, ?_, ?_, c7, c8, c9, ?_⟩
      · have h1 : (passAux i rem (listSwap ind j e) (listSwap lab j e)
            (e + 1) (j + 1)).1.take e =
            ((listSwap ind j e).take (e + 1)).take e := by
          rw [← c5, List.take_take]
          congr 1
          omega
        rw [h1, List.take_take, Nat.min_eq_left (by omega), listSwap_take]
        · exact hej
        · exact Nat.le_refl e
      · have h1 : (passAux i rem (listSwap ind j e) (listSwap lab j e)
            (e + 1) (j + 1)).2.1.take e =
            ((listSwap lab j e).take (e + 1)).take e := by
          rw [← c6, List.take_take]
          congr 1
          omega
        rw [h1, List.take_take, Nat.min_eq_left (by omega), listSwap_take]
        · exact hej
        · exact Nat.le_refl e
      · refine c10.trans ?_
        rw [zip_listSwap ind lab j e (by omega) hjlen heind]
        apply listSwap_perm
        · rw [List.length_zip]
          omega
        · rw [List.length_zip]
          omega
    · rw [if_neg hcase]
      obtain ⟨c1, c2, c3, c4, c5, c6, c7, c8, c9, c10⟩ :=
        ih ind lab e (j + 1) hil hll (by omega) he0 (by omega) hen hprelt hmid
          (by
            intro m hm1 hm2
            by_cases hmj : m = j
            · subst hmj
              exact hcase
            · exact hscan m hm1 (by omega))
          hsge
      exact ⟨c1, c2, c3, c4, c5, c6, c7, c8, c9, c10⟩

/-- The specification of one full partition pass (`partPass`), as used by
`clusterChildren`: pass `i` starts with both the prefix boundary and the
counter at `e0`. -/
theorem partPass_spec (i : Nat) (ind lab : List Nat) (e0 : Nat)
    (hll : lab.length = ind.length) (he0 : e0 ≤ ind.length)
    (hprelt : ∀ m, m < e0 → lab.getD m 0 < i)
    (hsge : ∀ m, e0 ≤ m → m < ind.length → i ≤ lab.getD m 0) :
    (partPass i ind lab e0).1.length = ind.length ∧
    (partPass i ind lab e0).2.1.length = ind.length ∧
    e0 ≤ (partPass i ind lab e0).2.2 ∧
    (partPass i ind lab e0).2.2 ≤ ind.length ∧
    (partPass i ind lab e0).1.take e0 = ind.take e0 ∧
    (partPass i ind lab e0).2.1.take e0 = lab.take e0 ∧
    (∀ m, m < e0 → (partPass i ind lab e0).2.1.getD m 0 < i) ∧
    (∀ m, e0 ≤ m → m < (partPass i ind lab e0).2.2 →
      (partPass i ind lab e0).2.1.getD m 0 = i) ∧
    (∀ m, (partPass i ind lab e0).2.2 ≤ m → m < ind.length →
      i ≤ (partPass i ind lab e0).2.1.getD m 0 ∧
      (partPass i ind lab e0).2.1.getD m 0 ≠ i) ∧
    List.Perm ((partPass i ind lab e0).1.zip (partPass i ind lab e0).2.1)
      (ind.zip lab) := by
  unfold partPass
  exact passAux_spec i e0 ind.length ind.length ind lab e0 0 rfl hll
    (by omega) (Nat.le_refl e0) (by omega) he0 hprelt
    (by intro m h1 h2; omega) (by intro m h1 h2; omega) hsge

theorem zip_getD {γ δ : Type} [Inhabited γ] [Inhabited δ] (x : List γ)
    (y : List δ) (m : Nat) (hmx : m < x.length) (hmy : m < y.length) :
    (x.zip y).getD m default = (x.getD m default, y.getD m default) := by
  rw [List.getD_eq_getElem?_getD, getElem?_zip',
    List.getElem?_eq_getElem hmx, List.getElem?_eq_getElem hmy,
    List.getD_eq_getElem?_getD, List.getElem?_eq_getElem hmx,
    List.getD_eq_getElem?_getD, List.getElem?_eq_getElem hmy]
  rfl

theorem segment_append_drop {γ : Type} (l : List γ) (a b : Nat) (hab : a ≤ b) :
    (l.drop a).take (b - a) ++ l.drop b = l.drop a := by
  have h1 : (l.drop a).drop (b - a) = l.drop b := by
    rw [List.drop_drop]
    congr 1
    omega
  conv_rhs => rw [← List.take_append_drop (b - a) (l.drop a)]
  rw [h1]

theorem leafInfosList_ofList {α : Type} :
    ∀ (l : List (Node α)),
      NodeList.leafInfosList (NodeList.ofList l) = (l.map Node.leafInfos).join := by
  intro l
  induction l with
  | nil => rfl
  | cons c cs ih =>
    show c.leafInfos ++ NodeList.leafInfosList (NodeList.ofList cs) = _
    rw [ih]
    rfl

theorem map_index_map_mk {α : Type} [Inhabited α] (data : List α)
    (indices : List Nat) :
    ((indices.map fun i => (⟨i, data.getD i default⟩ : PointInfo α)).map
      PointInfo.index) = indices := by
  rw [List.map_map]
  have : ∀ x ∈ indices,
      (PointInfo.index ∘ fun i => (⟨i, data.getD i default⟩ : PointInfo α)) x =
        id x := fun x _ => rfl
  rw [List.map_congr_left this, List.map_id]

theorem computeLabels_length {α β : Type} [Inhabited α] [LinearOrder β]
    (dist : α → α → β) (data : List α) (indices centers : List Nat) :
    (computeLabels dist data indices centers).length = indices.length := by
  simp [computeLabels]

theorem computeLabels_lt {α β : Type} [Inhabited α] [LinearOrder β]
    (dist : α → α → β) (data : List α) (indices centers : List Nat)
    (hc : centers ≠ []) :
    ∀ x ∈ computeLabels dist data indices centers, x < centers.length := by
  intro x hx
  obtain ⟨idx, _, rfl⟩ := List.mem_map.1 hx
  have := minIdx_lt_length
    (centers.map fun c => dist (data.getD idx default) (data.getD c default))
    (by simpa using hc)
  simpa using this

/-- Content specification of the clustering: the leaves below a clustered
node hold exactly the input indices (as a multiset), each child receives
exactly the indices labelled with its center (as a multiset), and every
stored point record carries the dataset vector of its index. -/
theorem cluster_content_aux {α β : Type} [Inhabited α] [LinearOrder β]
    (dist : α → α → β) (data : List α) (branching leafSize : Nat)
    (chooser : List Nat → List Nat) (hb : 1 ≤ branching) :
    ∀ fuel : Nat,
      (∀ (pv : α) (old : List (PointInfo α)) (indices : List Nat) (t : Node α),
        computeClustering dist data branching leafSize chooser fuel pv old
          indices = some t →
        List.Perm t.leafIndices indices ∧
        ∀ p ∈ t.leafInfos, p.point = data.getD p.index default) ∧
      (∀ (centers : List Nat) (i0 : Nat) (ind lab : List Nat) (e0 : Nat)
          (children : List (Node α)),
        clusterChildren dist data branching leafSize chooser fuel centers i0
          ind lab e0 = some children →
        lab.length = ind.length → e0 ≤ ind.length →
        (∀ m, m < e0 → lab.getD m 0 < i0) →
        (∀ m, e0 ≤ m → m < ind.length → i0 ≤ lab.getD m 0) →
        (∀ x ∈ lab, x < i0 + centers.length) →
        children.length = centers.length ∧
        List.Perm ((children.map Node.leafIndices).join) (ind.drop e0) ∧
        (∀ (dflt : Node α) (k : Nat), k < centers.length →
          List.Perm (children.getD k dflt).leafIndices
            ((((ind.zip lab).drop e0).filter fun p => p.2 = i0 + k).map
              Prod.fst)) ∧
        (∀ c ∈ children, ∀ p ∈ c.leafInfos,
          p.point = data.getD p.index default)) := by
  intro fuel
  induction fuel with
  | zero =>
    constructor
    · intro pv old indices t h
      exact Option.noConfusion h
    · intro centers i0 ind lab e0 children h
      exact Option.noConfusion h
  | succ n ih =>
    constructor
    · intro pv old indices t h
      rw [computeClustering] at h
      by_cases h1 : indices.length < leafSize
      · rw [if_pos h1] at h
        have ht := Option.some.inj h
        subst ht
        constructor
        · show List.Perm ((indices.map fun i =>
            (⟨i, data.getD i default⟩ : PointInfo α)).map PointInfo.index) indices
          rw [map_index_map_mk]
        · intro p hp
          obtain ⟨i, _, rfl⟩ := List.mem_map.1 hp
          rfl
      · rw [if_neg h1] at h
        by_cases h2 : ((chooser indices).take branching).length < branching
        · rw [if_pos h2] at h
          have ht := Option.some.inj h
          subst ht
          constructor
          · show List.Perm ((indices.map fun i =>
              (⟨i, data.getD i default⟩ : PointInfo α)).map PointInfo.index) indices
            rw [map_index_map_mk]
          · intro p hp
            obtain ⟨i, _, rfl⟩ := List.mem_map.1 hp
            rfl
        · rw [if_neg h2] at h
          cases hcc : clusterChildren dist data branching leafSize chooser n
              ((chooser indices).take branching) 0 indices
              (computeLabels dist data indices ((chooser indices).take branching))
              0 with
          | none => rw [hcc] at h; exact Option.noConfusion h
          | some children =>
            rw [hcc] at h
            have ht := Option.some.inj h
            subst ht
            have hclen : ((chooser indices).take branching).length = branching := by
              have := List.length_take_le branching (chooser indices)
              omega
            have hcne : (chooser indices).take branching ≠ [] := by
              intro hnil
              rw [hnil] at hclen
              simp at hclen
              omega
            obtain ⟨hlen, hjoin, _, hgood⟩ := ih.2
              ((chooser indices).take branching) 0 indices
              (computeLabels dist data indices ((chooser indices).take branching))
              0 children hcc
              (computeLabels_length dist data _ _)
              (Nat.zero_le _)
              (by intro m hm; omega)
              (by intro m _ _; exact Nat.zero_le _)
              (by
                intro x hx
                have := computeLabels_lt dist data indices _ hcne x hx
                omega)
            have hchildsne : children ≠ [] := by
              intro hnil
              rw [hnil] at hlen
              simp only [List.length_nil] at hlen
              omega
            cases children with
            | nil => exact absurd rfl hchildsne
            | cons c cs =>
              have hinfos : (Node.mk pv (NodeList.ofList (c :: cs)) old).leafInfos =
                  ((c :: cs).map Node.leafInfos).join := by
                show NodeList.leafInfosList (NodeList.cons c (NodeList.ofList cs)) = _
                have := leafInfosList_ofList (c :: cs)
                exact this
              constructor
              · show List.Perm
                  ((Node.mk pv (NodeList.ofList (c :: cs)) old).leafInfos.map
                    PointInfo.index) indices
                rw [hinfos, List.map_join, List.map_map]
                have hfn : (List.map PointInfo.index ∘ Node.leafInfos) =
                    (Node.leafIndices (α := α)) := rfl
                rw [hfn]
                simpa using hjoin
              · intro p hp
                rw [hinfos] at hp
                obtain ⟨l, hl, hpl⟩ := List.mem_join.1 hp
                obtain ⟨cc, hcc2, rfl⟩ := List.mem_map.1 hl
                exact hgood cc hcc2 p hpl
    · intro centers i0 ind lab e0 children h hll he0 hprelt hsge hbound
      cases centers with
      | nil =>
        rw [clusterChildren] at h
        have hch := Option.some.inj h
        subst hch
        have hregion : ind.length ≤ e0 := by
          by_contra hlt
          push_neg at hlt
          have hmem : lab.getD e0 0 ∈ lab := by
            have he0l : e0 < lab.length := by omega
            rw [List.getD_eq_getElem?_getD, List.getElem?_eq_getElem he0l]
            exact List.getElem_mem he0l
          have := hbound _ hmem
          have := hsge e0 (Nat.le_refl e0) hlt
          simp at *
          omega
        refine ⟨rfl, ?_, ?_, ?_⟩
        · rw [List.drop_eq_nil_of_le hregion]
          exact List.Perm.refl _
        · intro dflt k hk
          simp at hk
        · intro c hc
          exact absurd hc (List.not_mem_nil c)
      | cons c0 crest =>
        rw [clusterChildren] at h
        cases hpp : partPass i0 ind lab e0 with
        | mk ind2 r2 =>
          obtain ⟨lab2, e2⟩ := r2
          rw [hpp] at h
          dsimp only at h
          cases hcc : computeClustering dist data branching leafSize chooser n
              (data.getD c0 default) [] ((ind2.drop e0).take (e2 - e0)) with
          | none => rw [hcc] at h; exact Option.noConfusion h
          | some child =>
            rw [hcc] at h
            cases hrest : clusterChildren dist data branching leafSize chooser n
                crest (i0 + 1) ind2 lab2 e2 with
            | none => rw [hrest] at h; exact Option.noConfusion h
            | some rest =>
              rw [hrest] at h
              have hch := Option.some.inj h
              subst hch
              have hps := partPass_spec i0 ind lab e0 hll he0 hprelt hsge
              rw [hpp] at hps
              dsimp only at hps
              obtain ⟨p1, p2, p3, p4, p5, p6, p7, p8, p9, p10⟩ := hps
              have hlab2perm : List.Perm lab2 lab := by
                have h1 := p10.map Prod.snd
                rw [List.map_snd_zip ind2 lab2 (by omega),
                  List.map_snd_zip ind lab (by omega)] at h1
                exact h1
              obtain ⟨hlen2, hjoin2, hfilters2, hgood2⟩ := ih.2 crest (i0 + 1)
                ind2 lab2 e2 rest hrest
                (by omega)
                (by omega)
                (by
                  intro m hm
                  rcases Nat.lt_or_ge m e0 with hm0 | hm0
                  · have := p7 m hm0
                    omega
                  · have := p8 m hm0 hm
                    omega)
                (by
                  intro m hm1 hm2
                  have := p9 m hm1 (by omega)
                  omega)
                (by
                  intro x hx
                  have := hbound x (hlab2perm.mem_iff.1 hx)
                  simp only [List.length_cons] at this
                  omega)
              obtain ⟨hchildperm, hchildgood⟩ := ih.1 _ _ _ _ hcc
              have hzlen2 : (ind2.zip lab2).length = ind.length := by
                rw [List.length_zip]
                omega
              have hzlen : (ind.zip lab).length = ind.length := by
                rw [List.length_zip]
                omega
              have htake : (ind2.zip lab2).take e0 = (ind.zip lab).take e0 := by
                rw [zip_take', zip_take', p5, p6]
              have hdropperm : List.Perm ((ind2.zip lab2).drop e0)
                  ((ind.zip lab).drop e0) := by
                have h1 : List.Perm
                    ((ind2.zip lab2).take e0 ++ (ind2.zip lab2).drop e0)
                    ((ind.zip lab).take e0 ++ (ind.zip lab).drop e0) := by
                  rw [List.take_append_drop, List.take_append_drop]
                  exact p10
                rw [htake] at h1
                exact (List.perm_append_left_iff _).1 h1
              have hdropind : List.Perm (ind2.drop e0) (ind.drop e0) := by
                have h1 := hdropperm.map Prod.fst
                rw [zip_drop', zip_drop', List.map_fst_zip _ _ (by simp; omega),
                  List.map_fst_zip _ _ (by simp; omega)] at h1
                exact h1
              have hseg_all : ∀ x ∈ ((ind2.zip lab2).drop e0).take (e2 - e0),
                  x.2 = i0 := by
                apply forall_mem_segment (ind2.zip lab2) e0 e2 (fun p => p.2 = i0)
                intro m hm1 hm2 hm3
                rw [zip_getD ind2 lab2 m (by omega) (by omega)]
                exact p8 m hm1 hm2
              have htail_ne : ∀ x ∈ (ind2.zip lab2).drop e2, x.2 ≠ i0 := by
                apply forall_mem_drop (ind2.zip lab2) e2 (fun p => p.2 ≠ i0)
                intro m hm1 hm2
                rw [zip_getD ind2 lab2 m (by omega) (by omega)]
                exact (p9 m hm1 (by omega)).2
              have hdecomp : ((ind2.zip lab2).drop e0).take (e2 - e0) ++
                  (ind2.zip lab2).drop e2 = (ind2.zip lab2).drop e0 :=
                segment_append_drop (ind2.zip lab2) e0 e2 p3
              have hsegmap : (((ind2.zip lab2).drop e0).take (e2 - e0)).map
                  Prod.fst = (ind2.drop e0).take (e2 - e0) := by
                rw [zip_drop', zip_take', List.map_fst_zip]
                simp
                omega
              refine ⟨by simpa using hlen2, ?_, ?_, ?_⟩
              · show List.Perm (child.leafIndices ++ (rest.map Node.leafIndices).join) _
                have h1 := hchildperm.append hjoin2
                have h2 : (ind2.drop e0).take (e2 - e0) ++ ind2.drop e2 =
                    ind2.drop e0 := segment_append_drop ind2 e0 e2 p3
                rw [h2] at h1
                exact h1.trans hdropind
              · intro dflt k hk
                cases k with
                | zero =>
                  show List.Perm child.leafIndices _
                  have hfseg : ((ind2.zip lab2).drop e0).filter
                      (fun p => p.2 = i0 + 0) =
                      ((ind2.zip lab2).drop e0).take (e2 - e0) := by
                    rw [← hdecomp, List.filter_append]
                    have hA : (((ind2.zip lab2).drop e0).take (e2 - e0)).filter
                        (fun p => p.2 = i0 + 0) =
                        ((ind2.zip lab2).drop e0).take (e2 - e0) := by
                      apply List.filter_eq_self.2
                      intro a ha
                      simpa using hseg_all a ha
                    have hB : ((ind2.zip lab2).drop e2).filter
                        (fun p => p.2 = i0 + 0) = [] := by
                      apply List.filter_eq_nil.2
                      intro a ha
                      simpa using htail_ne a ha
                    rw [hA, hB, List.append_nil, hdecomp]
                  have htrans : List.Perm
                      (((ind.zip lab).drop e0).filter fun p => p.2 = i0 + 0)
                      (((ind2.zip lab2).drop e0).take (e2 - e0)) := by
                    rw [← hfseg]
                    exact (hdropperm.filter _).symm
                  refine (hchildperm.trans ?_).trans (htrans.map Prod.fst).symm
                  rw [hsegmap]
                | succ k =>
                  show List.Perm (rest.getD k dflt).leafIndices _
                  have hfk := hfilters2 dflt k (by simpa using hk)
                  have hfeq : ((ind2.zip lab2).drop e0).filter
                      (fun p => p.2 = i0 + (k + 1)) =
                      ((ind2.zip lab2).drop e2).filter
                      (fun p => p.2 = i0 + (k + 1)) := by
                    rw [← hdecomp, List.filter_append]
                    have hA : (((ind2.zip lab2).drop e0).take (e2 - e0)).filter
                        (fun p => p.2 = i0 + (k + 1)) = [] := by
                      apply List.filter_eq_nil.2
                      intro a ha
                      have := hseg_all a ha
                      simp [this]
                    rw [hA, List.nil_append]
                  have hlabel : i0 + 1 + k = i0 + (k + 1) := by omega
                  rw [hlabel] at hfk
                  refine hfk.trans ?_
                  have := (hdropperm.filter (fun p => decide (p.2 = i0 + (k + 1)))).map Prod.fst
                  rw [← hfeq]
                  exact this
              · intro c hc
                rcases List.mem_cons.1 hc with rfl | hc
                · exact hchildgood
                · exact hgood2 c hc

/-! ### C2: leaf coverage of built trees -/

/-- C2: after `buildIndex`, in each single tree of the forest the multiset of
indices stored across the leaves equals exactly {0, ..., N-1}, each index
occurring exactly once in that tree. -/
theorem C2_leaf_coverage {α β : Type} [Inhabited α] [LinearOrder β]
    (dist : α → α → β) (branching leafSize : Nat) (chooser : List Nat → List Nat)
    (fuel trees : Nat) (data : List α) (st : HIndex α)
    (h : buildIndex dist branching leafSize chooser fuel trees data = some st) :
    ∀ t ∈ st.forest, List.Perm t.leafIndices (List.range st.data.length) := by
  rw [buildIndex] at h
  by_cases hb : branching < 2
  · rw [if_pos hb] at h
    exact Option.noConfusion h
  · rw [if_neg hb] at h
    cases hf : buildForest dist data branching leafSize chooser fuel trees with
    | none => rw [hf] at h; exact Option.noConfusion h
    | some forest =>
      rw [hf] at h
      have hst := Option.some.inj h
      subst hst
      intro t ht
      obtain ⟨a, _, hcc⟩ := mapM_option_mem _ _ _ hf t ht
      exact ((cluster_content_aux dist data branching leafSize chooser
        (by omega) fuel).1 _ _ _ _ hcc).1

/-- Witness for C2: a concrete two-level tree over three integer points covers
exactly the indices 0, 1, 2. -/
theorem C2_leaf_coverage_witness :
    List.Perm (Node.mk (0 : Int)
      (.cons (.mk (-5) .nil [⟨0, -5⟩]) (.cons (.mk 1 .nil [⟨1, 5⟩, ⟨2, 1⟩]) .nil))
      []).leafIndices (List.range 3) := by
  have hbuild : buildIndex sqDist 2 2 (fun l => if 3 ≤ l.length then [0, 2] else [])
      5 1 [(-5 : Int), 5, 1] =
      some ⟨[(-5 : Int), 5, 1], 3,
        [.mk 0 (.cons (.mk (-5) .nil [⟨0, -5⟩])
          (.cons (.mk 1 .nil [⟨1, 5⟩, ⟨2, 1⟩]) .nil)) []]⟩ := by decide
  have := C2_leaf_coverage sqDist 2 2 (fun l => if 3 ≤ l.length then [0, 2] else [])
    5 1 [(-5 : Int), 5, 1] _ hbuild
    (Node.mk (0 : Int)
      (.cons (.mk (-5) .nil [⟨0, -5⟩]) (.cons (.mk 1 .nil [⟨1, 5⟩, ⟨2, 1⟩]) .nil))
      []) (by simp)
  simpa using this

/-! ### C5: the partition groups by label but is not stable -/

theorem zip_mapLabel_filter (l : List Nat) (f : Nat → Nat) (k : Nat) :
    ((l.zip (l.map f)).filter fun p => p.2 = k).map Prod.fst =
      l.filter fun x => f x = k := by
  induction l with
  | nil => rfl
  | cons x xs ih =>
    simp only [List.map_cons, List.zip_cons_cons, List.filter_cons]
    by_cases hk : f x = k
    · simp [hk, ih]
    · simp [hk, ih]

/-- C5 (amended): in `computeClustering`, after labels are assigned the
indices array is reordered in place into a permutation of its input grouped
by label: child `k` receives exactly the indices labelled `k` (as a
multiset) and the concatenation over the children is a permutation of the
input; the relative order of indices within a label group is not necessarily
preserved. -/
theorem C5_partition_groups {α β : Type} [Inhabited α] [LinearOrder β]
    (dist : α → α → β) (data : List α) (branching leafSize : Nat)
    (chooser : List Nat → List Nat) (fuel : Nat) (pv : α)
    (old : List (PointInfo α)) (indices : List Nat) (t : Node α)
    (hb : 1 ≤ branching)
    (h : computeClustering dist data branching leafSize chooser (fuel + 1) pv old
      indices = some t)
    (hlen : ¬ indices.length < leafSize)
    (hcent : ¬ ((chooser indices).take branching).length < branching) :
    t.childs.toList.length = branching ∧
    List.Perm ((t.childs.toList.map Node.leafIndices).join) indices ∧
    ∀ (dflt : Node α) (k : Nat), k < branching →
      List.Perm (t.childs.toList.getD k dflt).leafIndices
        (indices.filter fun idx =>
          minIdx (((chooser indices).take branching).map fun c =>
            dist (data.getD idx default) (data.getD c default)) = k) := by
  rw [computeClustering, if_neg hlen, if_neg hcent] at h
  cases hcc : clusterChildren dist data branching leafSize chooser fuel
      ((chooser indices).take branching) 0 indices
      (computeLabels dist data indices ((chooser indices).take branching)) 0 with
  | none => rw [hcc] at h; exact Option.noConfusion h
  | some children =>
    rw [hcc] at h
    have ht := Option.some.inj h
    subst ht
    have hclen : ((chooser indices).take branching).length = branching := by
      have := List.length_take_le branching (chooser indices)
      omega
    have hcne : (chooser indices).take branching ≠ [] := by
      intro hnil
      rw [hnil] at hclen
      simp only [List.length_nil] at hclen
      omega
    obtain ⟨hlen2, hjoin, hfilters, _⟩ := (cluster_content_aux dist data branching
      leafSize chooser hb fuel).2
      ((chooser indices).take branching) 0 indices
      (computeLabels dist data indices ((chooser indices).take branching))
      0 children hcc
      (computeLabels_length dist data _ _)
      (Nat.zero_le _)
      (by intro m hm; omega)
      (by intro m _ _; exact Nat.zero_le _)
      (by
        intro x hx
        have := computeLabels_lt dist data indices _ hcne x hx
        omega)
    have hcl : (Node.mk pv (NodeList.ofList children) old).childs.toList =
        children := by
      show (NodeList.ofList children).toList = children
      exact NodeList.toList_ofList children
    rw [hcl]
    refine ⟨by rw [hlen2, hclen], by simpa using hjoin, ?_⟩
    intro dflt k hk
    have hf := hfilters dflt k (by omega)
    rw [List.drop_zero] at hf
    have hzf : ((indices.zip (computeLabels dist data indices
        ((chooser indices).take branching))).filter fun p => p.2 = 0 + k).map
        Prod.fst =
        indices.filter fun idx =>
          minIdx (((chooser indices).take branching).map fun c =>
            dist (data.getD idx default) (data.getD c default)) = 0 + k :=
      zip_mapLabel_filter indices _ (0 + k)
    rw [hzf] at hf
    simpa using hf

/-- Counterexample for C5 as frozen: on the dataset [0, 1, 10] with centers
(dataset points) [2, 1], the indices labelled 1 are [0, 1] in input order,
but the partition hands child 1 the slice [1, 0]: the relative order within
the label group is reversed, so the reordering is not stable. -/
theorem C5_partition_stability_counterexample :
    (computeClustering sqDist [(0 : Int), 1, 10] 2 2
        (fun l => if 3 ≤ l.length then [2, 1] else []) 5 0 [] [0, 1, 2]).map
      (fun t => t.childs.toList.map Node.leafIndices) = some [[2], [1, 0]] ∧
    computeLabels sqDist [(0 : Int), 1, 10] [0, 1, 2] [2, 1] = [1, 1, 0] ∧
    ([1, 0] : List Nat) ≠ [0, 1] := by
  refine ⟨by decide, by decide, by decide⟩

/-- Witness for the amended C5 at the counterexample input: two children,
whose contents are exactly the label groups as multisets. -/
theorem C5_partition_groups_witness :
    (Node.mk (0 : Int) (.cons (.mk 10 .nil [⟨2, 10⟩])
        (.cons (.mk 1 .nil [⟨1, 1⟩, ⟨0, 0⟩]) .nil)) []).childs.toList.length = 2 ∧
    List.Perm (((Node.mk (0 : Int) (.cons (.mk 10 .nil [⟨2, 10⟩])
        (.cons (.mk 1 .nil [⟨1, 1⟩, ⟨0, 0⟩]) .nil)) []).childs.toList.map
      Node.leafIndices).join) [0, 1, 2] := by
  have hcc : computeClustering sqDist [(0 : Int), 1, 10] 2 2
      (fun l => if 3 ≤ l.length then [2, 1] else []) 5 0 [] [0, 1, 2] =
      some (.mk 0 (.cons (.mk 10 .nil [⟨2, 10⟩])
        (.cons (.mk 1 .nil [⟨1, 1⟩, ⟨0, 0⟩]) .nil)) []) := by decide
  have := C5_partition_groups sqDist [(0 : Int), 1, 10] 2 2
    (fun l => if 3 ≤ l.length then [2, 1] else []) 4 0 [] [0, 1, 2] _
    (by decide) hcc (by decide) (by decide)
  exact ⟨this.1, this.2.1⟩

/-! ### The k-nearest accumulator computes a sorted top-k -/

instance lexLe_isTotal {β : Type} [LinearOrder β] :
    IsTotal (β × Nat) lexLe where
  total a b := by
    rcases lt_trichotomy a.1 b.1 with h | h | h
    · exact Or.inl (Or.inl h)
    · rcases Nat.le_total a.2 b.2 with h2 | h2
      · exact Or.inl (Or.inr ⟨h, h2⟩)
      · exact Or.inr (Or.inr ⟨h.symm, h2⟩)
    · exact Or.inr (Or.inl h)

instance lexLe_isTrans {β : Type} [LinearOrder β] :
    IsTrans (β × Nat) lexLe where
  trans a b c hab hbc := by
    rcases hab with hab | ⟨hab1, hab2⟩
    · rcases hbc with hbc | ⟨hbc1, hbc2⟩
      · exact Or.inl (hab.trans hbc)
      · exact Or.inl (hbc1 ▸ hab)
    · rcases hbc with hbc | ⟨hbc1, hbc2⟩
      · exact Or.inl (hab1 ▸ hbc)
      · exact Or.inr ⟨hab1.trans hbc1, hab2.trans hbc2⟩

instance lexLe_isAntisymm {β : Type} [LinearOrder β] :
    IsAntisymm (β × Nat) lexLe where
  antisymm a b hab hba := by
    rcases hab with hab | ⟨hab1, hab2⟩
    · rcases hba with hba | ⟨hba1, hba2⟩
      · exact absurd (hab.trans hba) (lt_irrefl _)
      · exact absurd hab (hba1 ▸ lt_irrefl _)
    · rcases hba with hba | ⟨hba1, hba2⟩
      · exact absurd hba (hab1 ▸ lt_irrefl _)
      · exact Prod.ext hab1 (Nat.le_antisymm hab2 hba2)

theorem take_orderedInsert_take {β : Type} [LinearOrder β] (x : β × Nat) :
    ∀ (m : List (β × Nat)) (k : Nat),
      (List.orderedInsert lexLe x (m.take k)).take k =
        (List.orderedInsert lexLe x m).take k := by
  intro m
  induction m with
  | nil => intro k; rw [List.take_nil]
  | cons y m2 ih =>
    intro k
    cases k with
    | zero => rfl
    | succ k =>
      rw [List.take_succ_cons, List.orderedInsert, List.orderedInsert]
      by_cases hxy : lexLe x y
      · rw [if_pos hxy, if_pos hxy]
        cases k with
        | zero => rfl
        | succ j =>
          simp only [List.take_succ_cons, List.take_take]
          have hmin : min j (j + 1) = j := by omega
          rw [hmin]
      · rw [if_neg hxy, if_neg hxy]
        simp only [List.take_succ_cons]
        rw [ih k]

theorem orderedInsert_insertionSort {β : Type} [LinearOrder β] (x : β × Nat)
    (L : List (β × Nat)) :
    List.orderedInsert lexLe x (List.insertionSort lexLe L) =
      List.insertionSort lexLe (L ++ [x]) := by
  apply List.eq_of_perm_of_sorted (r := lexLe)
  · refine (List.perm_orderedInsert lexLe x _).trans ?_
    refine ((List.perm_insertionSort lexLe L).cons x).trans ?_
    exact (List.perm_append_singleton x L).symm.trans
      (List.perm_insertionSort lexLe (L ++ [x])).symm
  · exact (List.sorted_insertionSort lexLe L).orderedInsert x _
  · exact List.sorted_insertionSort lexLe (L ++ [x])

theorem knn_foldl_sorted {β : Type} [LinearOrder β] (k : Nat) :
    ∀ (evs L : List (β × Nat)),
      evs.foldl (fun r e => r.add e.1 e.2)
          (Knn.mk k ((List.insertionSort lexLe L).take k)) =
        Knn.mk k ((List.insertionSort lexLe (L ++ evs)).take k) := by
  intro evs
  induction evs with
  | nil => intro L; rw [List.foldl_nil, List.append_nil]
  | cons e evs ih =>
    intro L
    rw [List.foldl_cons]
    have hadd : Knn.add (Knn.mk k ((List.insertionSort lexLe L).take k))
        e.1 e.2 = Knn.mk k ((List.insertionSort lexLe (L ++ [e])).take k) := by
      rw [Knn.add]
      have hpair : ((e.1, e.2) : β × Nat) = e := rfl
      rw [hpair, take_orderedInsert_take e (List.insertionSort lexLe L) k,
        orderedInsert_insertionSort e L]
    rw [hadd, ih (L ++ [e]), List.append_assoc]
    rfl

theorem knn_foldl_empty {β : Type} [LinearOrder β] (k : Nat)
    (evs : List (β × Nat)) :
    evs.foldl (fun r e => r.add e.1 e.2) (Knn.empty k) =
      Knn.mk k ((List.insertionSort lexLe evs).take k) := by
  have := knn_foldl_sorted k evs []
  simpa [Knn.empty] using this

theorem insertionSort_perm_eq {β : Type} [LinearOrder β]
    {l l2 : List (β × Nat)} (h : List.Perm l l2) :
    List.insertionSort lexLe l = List.insertionSort lexLe l2 :=
  List.eq_of_perm_of_sorted
    ((List.perm_insertionSort lexLe l).trans
      (h.trans (List.perm_insertionSort lexLe l2).symm))
    (List.sorted_insertionSort lexLe l)
    (List.sorted_insertionSort lexLe l2)

/-! ### Position bookkeeping for the branch queue -/

theorem mem_eraseIdx_or_get {γ : Type} :
    ∀ (l : List γ) (j : Nat) (hj : j < l.length) (x : γ), x ∈ l →
      x ∈ l.eraseIdx j ∨ x = l.get ⟨j, hj⟩
  | [], _, _, x, hx => absurd hx (List.not_mem_nil x)
  | y :: ys, 0, _, x, hx => by
    rw [List.eraseIdx_cons_zero]
    rcases List.mem_cons.1 hx with rfl | hx
    · exact Or.inr rfl
    · exact Or.inl hx
  | y :: ys, j + 1, hj, x, hx => by
    rw [List.eraseIdx_cons_succ]
    have hj2 : j < ys.length := by
      have hl : (y :: ys).length = ys.length + 1 := rfl
      omega
    rcases List.mem_cons.1 hx with rfl | hx
    · exact Or.inl (List.mem_cons_self x _)
    · rcases mem_eraseIdx_or_get ys j hj2 x hx with h | h
      · exact Or.inl (List.mem_cons_of_mem y h)
      · exact Or.inr h

theorem get_mem_eraseIdx {γ : Type} :
    ∀ (l : List γ) (j m : Nat) (hm : m < l.length), m ≠ j →
      l.get ⟨m, hm⟩ ∈ l.eraseIdx j
  | [], _, _, hm, _ => absurd hm (by simp)
  | y :: ys, 0, 0, _, hne => absurd rfl hne
  | y :: ys, 0, m + 1, hm, _ => by
    rw [List.eraseIdx_cons_zero]
    have hm2 : m < ys.length := by
      have hl : (y :: ys).length = ys.length + 1 := rfl
      omega
    exact List.get_mem ys m hm2
  | y :: ys, j + 1, 0, _, _ => by
    rw [List.eraseIdx_cons_succ]
    exact List.mem_cons_self y _
  | y :: ys, j + 1, m + 1, hm, hne => by
    rw [List.eraseIdx_cons_succ]
    have hm2 : m < ys.length := by
      have hl : (y :: ys).length = ys.length + 1 := rfl
      omega
    exact List.mem_cons_of_mem y
      (get_mem_eraseIdx ys j m hm2 (fun h => hne (by omega)))

theorem sum_map_eraseIdx {γ : Type} (f : γ → Nat) :
    ∀ (l : List γ) (j : Nat) (hj : j < l.length),
      ((l.eraseIdx j).map f).sum + f (l.get ⟨j, hj⟩) = (l.map f).sum
  | [], _, hj => absurd hj (by simp)
  | y :: ys, 0, _ => by
    rw [List.eraseIdx_cons_zero, List.map_cons, List.sum_cons]
    show (ys.map f).sum + f y = f y + (ys.map f).sum
    omega
  | y :: ys, j + 1, hj => by
    rw [List.eraseIdx_cons_succ, List.map_cons, List.map_cons, List.sum_cons,
      List.sum_cons]
    have hj2 : j < ys.length := by
      have hl : (y :: ys).length = ys.length + 1 := rfl
      omega
    have ih := sum_map_eraseIdx f ys j hj2
    have hg : (y :: ys).get ⟨j + 1, hj⟩ = ys.get ⟨j, hj2⟩ := rfl
    rw [hg]
    omega

theorem Node.weight_pos {α : Type} (t : Node α) : 1 ≤ t.weight := by
  cases t with
  | mk pv cs ps =>
    show 1 ≤ NodeList.weightList cs + 1
    omega

theorem heapWeight_append {α β : Type} (h1 h2 : List (Node α × β)) :
    heapWeight (h1 ++ h2) = heapWeight h1 + heapWeight h2 := by
  rw [heapWeight, heapWeight, heapWeight, List.map_append, List.sum_append]

theorem heapWeight_eq_zero {α β : Type} (h : List (Node α × β))
    (hw : heapWeight h = 0) : h = [] := by
  cases h with
  | nil => rfl
  | cons b bs =>
    rw [heapWeight, List.map_cons, List.sum_cons] at hw
    have := Node.weight_pos b.1
    omega

theorem heapWeight_eraseIdx {α β : Type} (h : List (Node α × β)) (j : Nat)
    (hj : j < h.length) :
    heapWeight (h.eraseIdx j) + (h.get ⟨j, hj⟩).1.weight = heapWeight h :=
  sum_map_eraseIdx (fun b => b.1.weight) h j hj

theorem weightList_toList {α : Type} :
    ∀ (cs : NodeList α), NodeList.weightList cs = (cs.toList.map Node.weight).sum
  | .nil => rfl
  | .cons c cs => by
    show c.weight + NodeList.weightList cs =
      ((c :: cs.toList).map Node.weight).sum
    rw [List.map_cons, List.sum_cons, weightList_toList cs]
  termination_by cs => sizeOf cs

/-! ### Leaf contents seen through a children list -/

theorem mem_leafInfosList {α : Type} :
    ∀ (cs : NodeList α) (c : Node α), c ∈ cs.toList →
      ∀ p ∈ c.leafInfos, p ∈ cs.leafInfosList
  | .nil, c, hc, p, _ => by
    have hc2 : c ∈ ([] : List (Node α)) := hc
    exact absurd hc2 (List.not_mem_nil c)
  | .cons c0 cs, c, hc, p, hp => by
    have hc2 : c ∈ c0 :: cs.toList := hc
    show p ∈ c0.leafInfos ++ cs.leafInfosList
    rcases List.mem_cons.1 hc2 with rfl | hc3
    · exact List.mem_append_left _ hp
    · exact List.mem_append_right _ (mem_leafInfosList cs c hc3 p hp)
  termination_by cs _ _ _ _ => sizeOf cs

theorem leafInfosList_mem_rev {α : Type} :
    ∀ (cs : NodeList α) (p : PointInfo α), p ∈ cs.leafInfosList →
      ∃ ch ∈ cs.toList, p ∈ ch.leafInfos
  | .nil, p, hp => by
    have hp2 : p ∈ ([] : List (PointInfo α)) := hp
    exact absurd hp2 (List.not_mem_nil p)
  | .cons c0 cs, p, hp => by
    have hp2 : p ∈ c0.leafInfos ++ cs.leafInfosList := hp
    rcases List.mem_append.1 hp2 with h | h
    · exact ⟨c0, List.mem_cons_self c0 cs.toList, h⟩
    · obtain ⟨ch, hch, hpc⟩ := leafInfosList_mem_rev cs p h
      exact ⟨ch, List.mem_cons_of_mem c0 hch, hpc⟩
  termination_by cs _ _ => sizeOf cs

theorem goodTree_child {α : Type} [Inhabited α] (data : List α) (pv : α)
    (c : Node α) (cs : NodeList α) (ps : List (PointInfo α))
    (hg : goodTree data (Node.mk pv (NodeList.cons c cs) ps)) :
    ∀ ch ∈ (NodeList.cons c cs).toList, goodTree data ch := by
  intro ch hch p hp
  apply hg
  show p ∈ (NodeList.cons c cs).leafInfosList
  exact mem_leafInfosList _ ch hch p hp

theorem leafIndices_inner_mem {α : Type} (pv : α) (c : Node α) (cs : NodeList α)
    (ps : List (PointInfo α)) (idx : Nat)
    (h : idx ∈ (Node.mk pv (NodeList.cons c cs) ps).leafIndices) :
    ∃ ch ∈ (NodeList.cons c cs).toList, idx ∈ ch.leafIndices := by
  rw [Node.leafIndices] at h
  obtain ⟨p, hp, hpi⟩ := List.mem_map.1 h
  have hp2 : p ∈ (NodeList.cons c cs).leafInfosList := hp
  obtain ⟨ch, hch, hpc⟩ := leafInfosList_mem_rev _ p hp2
  exact ⟨ch, hch, by rw [Node.leafIndices]; exact List.mem_map.2 ⟨p, hpc, hpi⟩⟩

/-! ### The search-state invariant is preserved -/

theorem SInv_def {α β : Type} [Inhabited α] [LinearOrder β] (dist : α → α → β)
    (q : α) (data : List α) (removed : Nat → Bool) (k : Nat) (s : SState α β) :
    SInv dist q data removed k s ↔
      (s.checks = s.checked.card ∧
       s.checked ⊆ allNonRemoved data.length removed ∧
       ((s.events.map Prod.snd).Nodup) ∧
       (s.events.map Prod.snd).toFinset = s.checked ∧
       (∀ e ∈ s.events, e.1 = dist (data.getD e.2 default) q) ∧
       s.res = s.events.foldl (fun r e => r.add e.1 e.2) (Knn.empty k) ∧
       ∀ b ∈ s.heap, goodTree data b.1) := Iff.rfl

theorem scorePoints_covers {α β : Type} [LinearOrder β] (dist : α → α → β)
    (q : α) (removed : Nat → Bool) :
    ∀ (ps : List (PointInfo α)) (s : SState α β) (p : PointInfo α), p ∈ ps →
      removed p.index = false →
      p.index ∈ (scorePoints dist q removed ps s).checked := by
  intro ps
  induction ps with
  | nil => intro s p hp; exact absurd hp (List.not_mem_nil p)
  | cons p0 ps ih =>
    intro s p hp hrem
    rw [scorePoints]
    by_cases hc : p0.index ∈ s.checked ∨ removed p0.index
    · rw [if_pos hc]
      rcases List.mem_cons.1 hp with rfl | hp2
      · rcases hc with hc | hc
        · exact scorePoints_checked_mono dist q removed ps s hc
        · rw [hrem] at hc; exact absurd hc (by simp)
      · exact ih s p hp2 hrem
    · rw [if_neg hc]
      rcases List.mem_cons.1 hp with rfl | hp2
      · exact scorePoints_checked_mono dist q removed ps _
          (Finset.mem_insert_self _ _)
      · exact ih _ p hp2 hrem

theorem scorePoints_sinv {α β : Type} [Inhabited α] [LinearOrder β]
    (dist : α → α → β) (q : α) (data : List α) (removed : Nat → Bool) (k : Nat) :
    ∀ (ps : List (PointInfo α)) (s : SState α β),
      (∀ p ∈ ps, p.index < data.length ∧ p.point = data.getD p.index default) →
      SInv dist q data removed k s →
      SInv dist q data removed k (scorePoints dist q removed ps s) := by
  intro ps
  induction ps with
  | nil => intro s _ hs; exact hs
  | cons p ps ih =>
    intro s hgood hs
    rw [scorePoints]
    by_cases hc : p.index ∈ s.checked ∨ removed p.index
    · rw [if_pos hc]
      exact ih s (fun p2 hp2 => hgood p2 (List.mem_cons_of_mem p hp2)) hs
    · rw [if_neg hc]
      push_neg at hc
      obtain ⟨hnc, hnr⟩ := hc
      have hnrb : removed p.index = false := by
        revert hnr; cases removed p.index <;> simp
      obtain ⟨hpi, hpp⟩ := hgood p (List.mem_cons_self p ps)
      refine ih _ (fun p2 hp2 => hgood p2 (List.mem_cons_of_mem p hp2)) ?_
      rw [SInv_def] at hs ⊢
      obtain ⟨h1, h2, h3, h4, h5, h6, h7⟩ := hs
      refine ⟨?_, ?_, ?_, ?_, ?_, ?_, ?_⟩
      · show s.checks + 1 = (insert p.index s.checked).card
        rw [Finset.card_insert_of_not_mem hnc, h1]
      · show insert p.index s.checked ⊆ allNonRemoved data.length removed
        intro x hx
        rcases Finset.mem_insert.1 hx with rfl | hx
        · exact Finset.mem_filter.2 ⟨Finset.mem_range.2 hpi, hnrb⟩
        · exact h2 hx
      · show ((s.events ++ [(dist p.point q, p.index)]).map Prod.snd).Nodup
        rw [List.map_append]
        refine List.Nodup.append h3 (by simp) ?_
        intro x hx hx2
        simp only [List.map_cons, List.map_nil, List.mem_singleton] at hx2
        subst hx2
        apply hnc
        rw [← h4]
        exact List.mem_toFinset.2 hx
      · show ((s.events ++ [(dist p.point q, p.index)]).map Prod.snd).toFinset =
          insert p.index s.checked
        rw [List.map_append, List.toFinset_append, h4]
        ext x
        simp only [Finset.mem_union, List.mem_toFinset, List.map_cons,
          List.map_nil, List.mem_singleton, Finset.mem_insert]
        exact Or.comm
      · intro e he
        rcases List.mem_append.1 he with he | he
        · exact h5 e he
        · simp only [List.mem_singleton] at he
          subst he
          show dist p.point q = dist (data.getD p.index default) q
          rw [hpp]
      · show s.res.add (dist p.point q) p.index =
          (s.events ++ [(dist p.point q, p.index)]).foldl
            (fun r e => r.add e.1 e.2) (Knn.empty k)
        rw [List.foldl_append, ← h6]
        rfl
      · show ∀ b ∈ s.heap, goodTree data b.1
        exact h7

mutual
/-- A descent consumes more of the tree than it pushes: the queue weight grows
by strictly less than the weight of the visited tree. -/
theorem findNN_weight {α β : Type} [LinearOrder β] (dist : α → α → β) (q : α)
    (maxChecks : Nat) (removed : Nat → Bool) :
    ∀ (t : Node α) (s : SState α β),
      heapWeight (findNN dist q maxChecks removed t s).heap + 1 ≤
        heapWeight s.heap + t.weight
  | .mk pv .nil ps, s => by
    have heq : findNN dist q maxChecks removed (.mk pv .nil ps) s =
        if maxChecks ≤ s.checks ∧ s.res.full then s
        else scorePoints dist q removed ps s := rfl
    rw [heq]
    have hw : 1 ≤ (Node.mk pv NodeList.nil ps).weight := Node.weight_pos _
    by_cases hc : maxChecks ≤ s.checks ∧ s.res.full
    · rw [if_pos hc]; omega
    · rw [if_neg hc]
      rw [scorePoints_heap_eq]
      omega
  | .mk pv (.cons c cs) ps, s => by
    have hne : (NodeList.cons c cs).toList ≠ [] := by
      show c :: cs.toList ≠ []
      exact List.cons_ne_nil c cs.toList
    have hlen : ((NodeList.cons c cs).toList.map fun ch => dist q ch.pivot).length =
        (NodeList.cons c cs).toList.length := List.length_map _ _
    have hbest : minIdx ((NodeList.cons c cs).toList.map fun ch => dist q ch.pivot) <
        (NodeList.cons c cs).toList.length := by
      rw [← hlen]
      apply minIdx_lt_length
      intro h0
      exact hne (List.map_eq_nil.1 h0)
    have hztot : ((NodeList.cons c cs).toList.zip
        ((NodeList.cons c cs).toList.map fun ch => dist q ch.pivot)).length =
        (NodeList.cons c cs).toList.length := by
      rw [List.length_zip, hlen, Nat.min_self]
    have hbestz : minIdx ((NodeList.cons c cs).toList.map fun ch => dist q ch.pivot) <
        ((NodeList.cons c cs).toList.zip
          ((NodeList.cons c cs).toList.map fun ch => dist q ch.pivot)).length := by
      rw [hztot]; exact hbest
    have heq : findNN dist q maxChecks removed (.mk pv (.cons c cs) ps) s =
        findNNAt dist q maxChecks removed (NodeList.cons c cs)
          (minIdx ((NodeList.cons c cs).toList.map fun ch => dist q ch.pivot))
          { s with heap := s.heap ++
              (((NodeList.cons c cs).toList.zip
                ((NodeList.cons c cs).toList.map fun ch => dist q ch.pivot)).eraseIdx
                (minIdx ((NodeList.cons c cs).toList.map fun ch => dist q ch.pivot))) } :=
      rfl
    rw [heq]
    have hrec := findNNAt_weight dist q maxChecks removed (NodeList.cons c cs)
      (minIdx ((NodeList.cons c cs).toList.map fun ch => dist q ch.pivot))
      { s with heap := s.heap ++
          (((NodeList.cons c cs).toList.zip
            ((NodeList.cons c cs).toList.map fun ch => dist q ch.pivot)).eraseIdx
            (minIdx ((NodeList.cons c cs).toList.map fun ch => dist q ch.pivot))) }
      hbest
    have herase := heapWeight_eraseIdx
      ((NodeList.cons c cs).toList.zip
        ((NodeList.cons c cs).toList.map fun ch => dist q ch.pivot))
      (minIdx ((NodeList.cons c cs).toList.map fun ch => dist q ch.pivot)) hbestz
    have hgetz : (((NodeList.cons c cs).toList.zip
        ((NodeList.cons c cs).toList.map fun ch => dist q ch.pivot)).get
          ⟨minIdx ((NodeList.cons c cs).toList.map fun ch => dist q ch.pivot),
            hbestz⟩).1 =
        (NodeList.cons c cs).toList.get
          ⟨minIdx ((NodeList.cons c cs).toList.map fun ch => dist q ch.pivot),
            hbest⟩ := by
      simp [List.get_eq_getElem, List.getElem_zip]
    have hzipw : heapWeight ((NodeList.cons c cs).toList.zip
        ((NodeList.cons c cs).toList.map fun ch => dist q ch.pivot)) =
        ((NodeList.cons c cs).toList.map Node.weight).sum := by
      rw [heapWeight]
      have h1 : (((NodeList.cons c cs).toList.zip
          ((NodeList.cons c cs).toList.map fun ch => dist q ch.pivot)).map
            fun b => b.1.weight) =
          (((NodeList.cons c cs).toList.zip
            ((NodeList.cons c cs).toList.map fun ch => dist q ch.pivot)).map
              Prod.fst).map Node.weight := by
        rw [List.map_map]
        rfl
      rw [h1, List.map_fst_zip _ _ (le_of_eq hlen.symm)]
    have hsw : (Node.mk pv (NodeList.cons c cs) ps).weight =
        ((NodeList.cons c cs).toList.map Node.weight).sum + 1 := by
      show NodeList.weightList (NodeList.cons c cs) + 1 = _
      rw [weightList_toList]
    have happ : heapWeight (s.heap ++
        (((NodeList.cons c cs).toList.zip
          ((NodeList.cons c cs).toList.map fun ch => dist q ch.pivot)).eraseIdx
          (minIdx ((NodeList.cons c cs).toList.map fun ch => dist q ch.pivot)))) =
        heapWeight s.heap + heapWeight
          (((NodeList.cons c cs).toList.zip
            ((NodeList.cons c cs).toList.map fun ch => dist q ch.pivot)).eraseIdx
            (minIdx ((NodeList.cons c cs).toList.map fun ch => dist q ch.pivot))) :=
      heapWeight_append _ _
    rw [happ] at hrec
    rw [hgetz] at herase
    omega
  termination_by t _ => sizeOf t

/-- Weight bound for the descent into a fixed child position. -/
theorem findNNAt_weight {α β : Type} [LinearOrder β] (dist : α → α → β) (q : α)
    (maxChecks : Nat) (removed : Nat → Bool) :
    ∀ (cs : NodeList α) (j : Nat) (s : SState α β) (hj : j < cs.toList.length),
      heapWeight (findNNAt dist q maxChecks removed cs j s).heap + 1 ≤
        heapWeight s.heap + (cs.toList.get ⟨j, hj⟩).weight
  | .nil, j, s, hj => by
    have h0 : (NodeList.nil : NodeList α).toList.length = 0 := rfl
    omega
  | .cons c cs, 0, s, hj => by
    have heq : findNNAt dist q maxChecks removed (.cons c cs) 0 s =
        findNN dist q maxChecks removed c s := rfl
    rw [heq]
    have hg : (NodeList.cons c cs).toList.get ⟨0, hj⟩ = c := rfl
    rw [hg]
    exact findNN_weight dist q maxChecks removed c s
  | .cons c cs, j + 1, s, hj => by
    have heq : findNNAt dist q maxChecks removed (.cons c cs) (j + 1) s =
        findNNAt dist q maxChecks removed cs j s := rfl
    rw [heq]
    have hj2 : j < cs.toList.length := by
      have hl : (NodeList.cons c cs).toList.length = cs.toList.length + 1 := rfl
      omega
    have hg : (NodeList.cons c cs).toList.get ⟨j + 1, hj⟩ =
        cs.toList.get ⟨j, hj2⟩ := rfl
    rw [hg]
    exact findNNAt_weight dist q maxChecks removed cs j s hj2
  termination_by cs _ _ _ => sizeOf cs
end

mutual
/-- One tree descent preserves the search invariant, only grows the checked
set, only appends to the queue and, when the budget is not yet reached,
accounts for every non-removed leaf index of the visited tree: it is either
checked afterwards or sits below a queued branch. -/
theorem findNN_sinv {α β : Type} [Inhabited α] [LinearOrder β]
    (dist : α → α → β) (q : α) (data : List α) (maxChecks : Nat)
    (removed : Nat → Bool) (k : Nat) :
    ∀ (t : Node α) (s : SState α β), goodTree data t →
      SInv dist q data removed k s →
      SInv dist q data removed k (findNN dist q maxChecks removed t s) ∧
      s.checked ⊆ (findNN dist q maxChecks removed t s).checked ∧
      (∃ l, (findNN dist q maxChecks removed t s).heap = s.heap ++ l) ∧
      (s.checks < maxChecks →
        ∀ idx ∈ t.leafIndices, removed idx = false →
          idx ∈ (findNN dist q maxChecks removed t s).checked ∨
          ∃ b ∈ (findNN dist q maxChecks removed t s).heap,
            idx ∈ (b.1 : Node α).leafIndices)
  | .mk pv .nil ps, s, hg, hs => by
    have heq : findNN dist q maxChecks removed (.mk pv .nil ps) s =
        if maxChecks ≤ s.checks ∧ s.res.full then s
        else scorePoints dist q removed ps s := rfl
    rw [heq]
    by_cases hc : maxChecks ≤ s.checks ∧ s.res.full
    · rw [if_pos hc]
      refine ⟨hs, Finset.Subset.refl _, ⟨[], (List.append_nil s.heap).symm⟩, ?_⟩
      intro hck
      exact absurd hc.1 (by omega)
    · rw [if_neg hc]
      have hgood : ∀ p ∈ ps, p.index < data.length ∧
          p.point = data.getD p.index default := fun p hp => hg p hp
      refine ⟨scorePoints_sinv dist q data removed k ps s hgood hs,
        scorePoints_checked_mono dist q removed ps s,
        ⟨[], by rw [scorePoints_heap_eq, List.append_nil]⟩, ?_⟩
      intro _ idx hidx hrem
      obtain ⟨p, hp, hpidx⟩ :=
        List.mem_map.1 (hidx : idx ∈ ps.map PointInfo.index)
      left
      rw [← hpidx]
      exact scorePoints_covers dist q removed ps s p hp
        (by rw [hpidx]; exact hrem)
  | .mk pv (.cons c cs) ps, s, hg, hs => by
    have hchild : ∀ ch ∈ (NodeList.cons c cs).toList, goodTree data ch :=
      goodTree_child data pv c cs ps hg
    have hne : (NodeList.cons c cs).toList ≠ [] := by
      show c :: cs.toList ≠ []
      exact List.cons_ne_nil c cs.toList
    have hlen : ((NodeList.cons c cs).toList.map fun ch => dist q ch.pivot).length =
        (NodeList.cons c cs).toList.length := List.length_map _ _
    have hbest : minIdx ((NodeList.cons c cs).toList.map fun ch => dist q ch.pivot) <
        (NodeList.cons c cs).toList.length := by
      rw [← hlen]
      apply minIdx_lt_length
      intro h0
      exact hne (List.map_eq_nil.1 h0)
    have heq : findNN dist q maxChecks removed (.mk pv (.cons c cs) ps) s =
        findNNAt dist q maxChecks removed (NodeList.cons c cs)
          (minIdx ((NodeList.cons c cs).toList.map fun ch => dist q ch.pivot))
          { s with heap := s.heap ++
              (((NodeList.cons c cs).toList.zip
                ((NodeList.cons c cs).toList.map fun ch => dist q ch.pivot)).eraseIdx
                (minIdx ((NodeList.cons c cs).toList.map fun ch => dist q ch.pivot))) } :=
      rfl
    rw [heq]
    have hpushgood : ∀ b ∈ (((NodeList.cons c cs).toList.zip
        ((NodeList.cons c cs).toList.map fun ch => dist q ch.pivot)).eraseIdx
        (minIdx ((NodeList.cons c cs).toList.map fun ch => dist q ch.pivot))),
        goodTree data b.1 := by
      intro b hb
      have hbz := List.mem_of_mem_eraseIdx hb
      have hbc := (List.of_mem_zip hbz).1
      exact hchild b.1 hbc
    have hs1 : SInv dist q data removed k { s with heap := s.heap ++
        (((NodeList.cons c cs).toList.zip
          ((NodeList.cons c cs).toList.map fun ch => dist q ch.pivot)).eraseIdx
          (minIdx ((NodeList.cons c cs).toList.map fun ch => dist q ch.pivot))) } := by
      rw [SInv_def] at hs ⊢
      obtain ⟨h1, h2, h3, h4, h5, h6, h7⟩ := hs
      refine ⟨h1, h2, h3, h4, h5, h6, ?_⟩
      show ∀ b ∈ s.heap ++
        (((NodeList.cons c cs).toList.zip
          ((NodeList.cons c cs).toList.map fun ch => dist q ch.pivot)).eraseIdx
          (minIdx ((NodeList.cons c cs).toList.map fun ch => dist q ch.pivot))),
        goodTree data b.1
      intro b hb
      rcases List.mem_append.1 hb with hb | hb
      · exact h7 b hb
      · exact hpushgood b hb
    obtain ⟨hS, hmono, ⟨l2, hheap⟩, hcover⟩ :=
      findNNAt_sinv dist q data maxChecks removed k (NodeList.cons c cs)
        (minIdx ((NodeList.cons c cs).toList.map fun ch => dist q ch.pivot))
        { s with heap := s.heap ++
            (((NodeList.cons c cs).toList.zip
              ((NodeList.cons c cs).toList.map fun ch => dist q ch.pivot)).eraseIdx
              (minIdx ((NodeList.cons c cs).toList.map fun ch => dist q ch.pivot))) }
        hchild hs1
    refine ⟨hS, hmono,
      ⟨(((NodeList.cons c cs).toList.zip
          ((NodeList.cons c cs).toList.map fun ch => dist q ch.pivot)).eraseIdx
          (minIdx ((NodeList.cons c cs).toList.map fun ch => dist q ch.pivot))) ++ l2,
        by rw [hheap]; exact List.append_assoc _ _ _⟩, ?_⟩
    intro hck idx hidx hrem
    obtain ⟨ch, hch, hidxch⟩ := leafIndices_inner_mem pv c cs ps idx hidx
    obtain ⟨⟨m, hm⟩, hgetm⟩ := List.mem_iff_get.1 hch
    by_cases hmb : m =
        minIdx ((NodeList.cons c cs).toList.map fun ch => dist q ch.pivot)
    · subst hmb
      rw [← hgetm] at hidxch
      exact hcover hck hbest idx hidxch hrem
    · right
      have hmzlen : m < ((NodeList.cons c cs).toList.zip
          ((NodeList.cons c cs).toList.map fun ch => dist q ch.pivot)).length := by
        rw [List.length_zip, hlen, Nat.min_self]
        exact hm
      refine ⟨((NodeList.cons c cs).toList.zip
        ((NodeList.cons c cs).toList.map fun ch => dist q ch.pivot)).get
          ⟨m, hmzlen⟩, ?_, ?_⟩
      · rw [hheap]
        apply List.mem_append_left
        show ((NodeList.cons c cs).toList.zip
          ((NodeList.cons c cs).toList.map fun ch => dist q ch.pivot)).get
            ⟨m, hmzlen⟩ ∈ s.heap ++
          (((NodeList.cons c cs).toList.zip
            ((NodeList.cons c cs).toList.map fun ch => dist q ch.pivot)).eraseIdx
            (minIdx ((NodeList.cons c cs).toList.map fun ch => dist q ch.pivot)))
        apply List.mem_append_right
        exact get_mem_eraseIdx _ _ m hmzlen hmb
      · have hfst : (((NodeList.cons c cs).toList.zip
            ((NodeList.cons c cs).toList.map fun ch => dist q ch.pivot)).get
              ⟨m, hmzlen⟩).1 = (NodeList.cons c cs).toList.get ⟨m, hm⟩ := by
          simp [List.get_eq_getElem, List.getElem_zip]
        rw [hfst, hgetm]
        exact hidxch
  termination_by t _ _ _ => sizeOf t

/-- Invariant preservation and coverage for the descent into a fixed child
position. -/
theorem findNNAt_sinv {α β : Type} [Inhabited α] [LinearOrder β]
    (dist : α → α → β) (q : α) (data : List α) (maxChecks : Nat)
    (removed : Nat → Bool) (k : Nat) :
    ∀ (cs : NodeList α) (j : Nat) (s : SState α β),
      (∀ c ∈ cs.toList, goodTree data c) →
      SInv dist q data removed k s →
      SInv dist q data removed k (findNNAt dist q maxChecks removed cs j s) ∧
      s.checked ⊆ (findNNAt dist q maxChecks removed cs j s).checked ∧
      (∃ l, (findNNAt dist q maxChecks removed cs j s).heap = s.heap ++ l) ∧
      (s.checks < maxChecks →
        ∀ (hj : j < cs.toList.length),
          ∀ idx ∈ (cs.toList.get ⟨j, hj⟩).leafIndices, removed idx = false →
            idx ∈ (findNNAt dist q maxChecks removed cs j s).checked ∨
            ∃ b ∈ (findNNAt dist q maxChecks removed cs j s).heap,
              idx ∈ (b.1 : Node α).leafIndices)
  | .nil, j, s, _, hs =>
    ⟨hs, Finset.Subset.refl _, ⟨[], (List.append_nil s.heap).symm⟩,
      fun _ hj => absurd hj (Nat.not_lt_zero j)⟩
  | .cons c cs, 0, s, hgood, hs => by
    have heq : findNNAt dist q maxChecks removed (.cons c cs) 0 s =
        findNN dist q maxChecks removed c s := rfl
    rw [heq]
    obtain ⟨hS, hmono, hext, hcov⟩ :=
      findNN_sinv dist q data maxChecks removed k c s
        (hgood c (List.mem_cons_self c cs.toList)) hs
    refine ⟨hS, hmono, hext, ?_⟩
    intro hck hj idx hidx hrem
    have hg0 : (NodeList.cons c cs).toList.get ⟨0, hj⟩ = c := rfl
    rw [hg0] at hidx
    exact hcov hck idx hidx hrem
  | .cons c cs, j + 1, s, hgood, hs => by
    have heq : findNNAt dist q maxChecks removed (.cons c cs) (j + 1) s =
        findNNAt dist q maxChecks removed cs j s := rfl
    rw [heq]
    obtain ⟨hS, hmono, hext, hcov⟩ :=
      findNNAt_sinv dist q data maxChecks removed k cs j s
        (fun c2 hc2 => hgood c2 (List.mem_cons_of_mem c hc2)) hs
    refine ⟨hS, hmono, hext, ?_⟩
    intro hck hj idx hidx hrem
    have hj2 : j < cs.toList.length := by
      have hl : (NodeList.cons c cs).toList.length = cs.toList.length + 1 := rfl
      omega
    have hgj : (NodeList.cons c cs).toList.get ⟨j + 1, hj⟩ =
        cs.toList.get ⟨j, hj2⟩ := rfl
    rw [hgj] at hidx
    exact hcov hck hj2 idx hidx hrem
  termination_by cs _ _ _ _ => sizeOf cs
end

/-- When the budget is reached, the checked set has already saturated: it
equals the whole non-removed index range. -/
theorem checked_saturated {α β : Type} [Inhabited α] [LinearOrder β]
    (dist : α → α → β) (q : α) (data : List α) (removed : Nat → Bool) (k : Nat)
    (maxChecks : Nat) (s : SState α β) (hs : SInv dist q data removed k s)
    (hmc : data.length ≤ maxChecks) (hck : maxChecks ≤ s.checks) :
    s.checked = allNonRemoved data.length removed := by
  obtain ⟨h1, h2, _⟩ := (SInv_def dist q data removed k s).1 hs
  have hcardA : (allNonRemoved data.length removed).card ≤ data.length := by
    refine le_trans (Finset.card_filter_le _ _) ?_
    rw [Finset.card_range]
  have hsub := Finset.card_le_card h2
  apply Finset.eq_of_subset_of_card_le h2
  omega

/-- The best-bin-first loop drains the queue: with enough fuel, a state whose
queue covers every yet-unchecked index ends with the checked set equal to the
whole non-removed range, the invariant intact. -/
theorem searchLoop_master {α β : Type} [Inhabited α] [LinearOrder β]
    (dist : α → α → β) (q : α) (data : List α) (maxChecks : Nat)
    (removed : Nat → Bool) (k : Nat) (hmc : data.length ≤ maxChecks) :
    ∀ (fuel : Nat) (s : SState α β),
      SInv dist q data removed k s →
      heapWeight s.heap ≤ fuel →
      (∀ i ∈ allNonRemoved data.length removed,
        i ∈ s.checked ∨ ∃ b ∈ s.heap, i ∈ (b.1 : Node α).leafIndices) →
      SInv dist q data removed k (searchLoop dist q maxChecks removed fuel s) ∧
      (searchLoop dist q maxChecks removed fuel s).checked =
        allNonRemoved data.length removed := by
  intro fuel
  induction fuel with
  | zero =>
    intro s hs hw hcov
    have hnil : s.heap = [] := heapWeight_eq_zero _ (Nat.le_zero.1 hw)
    have hsub : allNonRemoved data.length removed ⊆ s.checked := by
      intro i hi
      rcases hcov i hi with h | ⟨b, hb, _⟩
      · exact h
      · rw [hnil] at hb
        exact absurd hb (List.not_mem_nil b)
    exact ⟨hs, Finset.Subset.antisymm
      ((SInv_def dist q data removed k s).1 hs).2.1 hsub⟩
  | succ n ih =>
    intro s hs hw hcov
    rw [searchLoop]
    cases hp : popMin s.heap with
    | none =>
      have hnil : s.heap = [] := by
        cases hh : s.heap with
        | nil => rfl
        | cons b bs =>
          rw [hh] at hp
          have hsome : popMin (b :: bs) =
              some ((b :: bs).getD (minIdx ((b :: bs).map Prod.snd)) b,
                (b :: bs).eraseIdx (minIdx ((b :: bs).map Prod.snd))) := rfl
          rw [hsome] at hp
          exact Option.noConfusion hp
      have hsub : allNonRemoved data.length removed ⊆ s.checked := by
        intro i hi
        rcases hcov i hi with h | ⟨b, hb, _⟩
        · exact h
        · rw [hnil] at hb
          exact absurd hb (List.not_mem_nil b)
      exact ⟨hs, Finset.Subset.antisymm
        ((SInv_def dist q data removed k s).1 hs).2.1 hsub⟩
    | some brr =>
      obtain ⟨br, rest⟩ := brr
      dsimp only
      obtain ⟨j, hj, hbr, hrest⟩ := popMin_spec s.heap br rest hp
      have hW : heapWeight rest + br.1.weight = heapWeight s.heap := by
        rw [hrest, hbr]
        exact heapWeight_eraseIdx s.heap j hj
      have hbrmem : br ∈ s.heap := by
        rw [hbr]; exact List.get_mem s.heap j hj
      have hrestmem : ∀ b ∈ rest, b ∈ s.heap := by
        intro b hb
        rw [hrest] at hb
        exact List.mem_of_mem_eraseIdx hb
      have hs7 := ((SInv_def dist q data removed k s).1 hs).2.2.2.2.2.2
      have hsrest : SInv dist q data removed k { s with heap := rest } := by
        rw [SInv_def]
        obtain ⟨h1, h2, h3, h4, h5, h6, _⟩ := (SInv_def dist q data removed k s).1 hs
        exact ⟨h1, h2, h3, h4, h5, h6, fun b hb => hs7 b (hrestmem b hb)⟩
      by_cases hcnd : s.checks < maxChecks ∨ ¬ s.res.full
      · rw [if_pos hcnd]
        have hgbr : goodTree data br.1 := hs7 br hbrmem
        obtain ⟨hS2, hmono2, ⟨l2, hheap2⟩, hcov2⟩ :=
          findNN_sinv dist q data maxChecks removed k br.1
            { s with heap := rest } hgbr hsrest
        have hwstep : heapWeight (findNN dist q maxChecks removed br.1
            { s with heap := rest }).heap + 1 ≤ heapWeight rest + br.1.weight :=
          findNN_weight dist q maxChecks removed br.1 { s with heap := rest }
        refine ih (findNN dist q maxChecks removed br.1 { s with heap := rest })
          hS2 (by omega) ?_
        intro i hi
        by_cases hck : s.checks < maxChecks
        · rcases hcov i hi with hic | ⟨b, hb, hib⟩
          · exact Or.inl (hmono2 hic)
          · rcases mem_eraseIdx_or_get s.heap j hj b hb with hbr2 | hbr2
            · refine Or.inr ⟨b, ?_, hib⟩
              rw [hheap2]
              apply List.mem_append_left
              show b ∈ rest
              rw [hrest]
              exact hbr2
            · have hbbr : b = br := by rw [hbr2, ← hbr]
              have hremi : removed i = false := (Finset.mem_filter.1 hi).2
              exact hcov2 hck i (hbbr ▸ hib) hremi
        · have hchk := checked_saturated dist q data removed k maxChecks s hs hmc
            (by omega)
          left
          apply hmono2
          show i ∈ s.checked
          rw [hchk]
          exact hi
      · rw [if_neg hcnd]
        push_neg at hcnd
        have hchk := checked_saturated dist q data removed k maxChecks s hs hmc
          hcnd.1
        exact ⟨hsrest, hchk⟩

theorem initState_sinv {α β : Type} [Inhabited α] [LinearOrder β]
    (dist : α → α → β) (q : α) (data : List α) (removed : Nat → Bool) (k : Nat) :
    SInv dist q data removed k (initState (α := α) (β := β) k) := by
  rw [SInv_def]
  refine ⟨?_, ?_, ?_, ?_, ?_, ?_, ?_⟩
  · show 0 = (∅ : Finset Nat).card
    rw [Finset.card_empty]
  · show (∅ : Finset Nat) ⊆ _
    exact Finset.empty_subset _
  · show (([] : List (β × Nat)).map Prod.snd).Nodup
    simp
  · show (([] : List (β × Nat)).map Prod.snd).toFinset = (∅ : Finset Nat)
    simp
  · intro e he
    have he2 : e ∈ ([] : List (β × Nat)) := he
    exact absurd he2 (List.not_mem_nil e)
  · rfl
  · intro b hb
    have hb2 : b ∈ ([] : List (Node α × β)) := hb
    exact absurd hb2 (List.not_mem_nil b)

/-- The initial per-tree descents of `findNeighbors` preserve the invariant,
only grow the checked set and the queue, and the queue weight stays bounded by
the total forest weight. -/
theorem foldl_findNN_pres {α β : Type} [Inhabited α] [LinearOrder β]
    (dist : α → α → β) (q : α) (data : List α) (maxChecks : Nat)
    (removed : Nat → Bool) (k : Nat) :
    ∀ (ts : List (Node α)) (s : SState α β),
      (∀ t ∈ ts, goodTree data t) → SInv dist q data removed k s →
      SInv dist q data removed k
        (ts.foldl (fun s2 t => findNN dist q maxChecks removed t s2) s) ∧
      s.checked ⊆
        (ts.foldl (fun s2 t => findNN dist q maxChecks removed t s2) s).checked ∧
      (∃ l, (ts.foldl (fun s2 t => findNN dist q maxChecks removed t s2) s).heap =
        s.heap ++ l) ∧
      heapWeight (ts.foldl (fun s2 t => findNN dist q maxChecks removed t s2) s).heap ≤
        heapWeight s.heap + forestWeight ts := by
  intro ts
  induction ts with
  | nil =>
    intro s _ hs
    refine ⟨hs, Finset.Subset.refl _, ⟨[], (List.append_nil s.heap).symm⟩, ?_⟩
    show heapWeight s.heap ≤ heapWeight s.heap + forestWeight []
    omega
  | cons t ts ih =>
    intro s hgood hs
    rw [List.foldl_cons]
    obtain ⟨hS1, hm1, ⟨l1, hh1⟩, _⟩ :=
      findNN_sinv dist q data maxChecks removed k t s
        (hgood t (List.mem_cons_self t ts)) hs
    obtain ⟨hS2, hm2, ⟨l2, hh2⟩, hwb⟩ :=
      ih (findNN dist q maxChecks removed t s)
        (fun t2 ht2 => hgood t2 (List.mem_cons_of_mem t ht2)) hS1
    refine ⟨hS2, Finset.Subset.trans hm1 hm2, ⟨l1 ++ l2, ?_⟩, ?_⟩
    · rw [hh2, hh1, List.append_assoc]
    · have hws := findNN_weight dist q maxChecks removed t s
      have hfw : forestWeight (t :: ts) = t.weight + forestWeight ts := by
        rw [forestWeight, forestWeight, List.map_cons, List.sum_cons]
      omega

/-- C1: for every dataset of N points and every query, if `findNeighbors` is
called with a checks budget of at least N on an index built by `buildIndex`
(with at least one tree, over a symmetric distance), the (distance, index)
pairs the result accumulator ends up holding are exactly the top-k of the
brute-force computation of the query-to-point distance over all non-removed
indices in [0, N). -/
theorem C1_exact_exhaustion {α β : Type} [Inhabited α] [LinearOrder β]
    (dist : α → α → β) (hsym : ∀ a b, dist a b = dist b a)
    (branching leafSize : Nat) (chooser : List Nat → List Nat)
    (fuel trees : Nat) (data : List α) (st : HIndex α)
    (hbuild : buildIndex dist branching leafSize chooser fuel trees data = some st)
    (hT : 1 ≤ trees) (q : α) (k maxChecks : Nat) (removed : Nat → Bool)
    (hmc : data.length ≤ maxChecks) :
    (findNeighbors dist q k maxChecks removed st.forest).res.pairs =
      bruteForceTopK k dist q data removed := by
  rw [buildIndex] at hbuild
  by_cases hb : branching < 2
  · rw [if_pos hb] at hbuild
    exact Option.noConfusion hbuild
  · rw [if_neg hb] at hbuild
    have hb1 : 1 ≤ branching := by omega
    cases hf : buildForest dist data branching leafSize chooser fuel trees with
    | none => rw [hf] at hbuild; exact Option.noConfusion hbuild
    | some forest =>
      rw [hf] at hbuild
      have hst := Option.some.inj hbuild
      subst hst
      show (findNeighbors dist q k maxChecks removed forest).res.pairs =
        bruteForceTopK k dist q data removed
      have htree : ∀ t ∈ forest,
          List.Perm t.leafIndices (List.range data.length) ∧
          ∀ p ∈ t.leafInfos, p.point = data.getD p.index default := by
        intro t ht
        obtain ⟨a, _, hcc⟩ := mapM_option_mem _ _ _ hf t ht
        exact (cluster_content_aux dist data branching leafSize chooser hb1
          fuel).1 _ _ _ _ hcc
      have hgood : ∀ t ∈ forest, goodTree data t := by
        intro t ht p hp
        obtain ⟨hperm, hpt⟩ := htree t ht
        constructor
        · have hidx : p.index ∈ t.leafIndices :=
            List.mem_map_of_mem PointInfo.index hp
          exact List.mem_range.1 (hperm.mem_iff.1 hidx)
        · exact hpt p hp
      have hlenf : forest.length = trees :=
        (mapM_option_length _ _ _ hf).trans (List.length_range trees)
      obtain ⟨t0, ts, rfl⟩ : ∃ t0 ts, forest = t0 :: ts := by
        cases forest with
        | nil => rw [List.length_nil] at hlenf; omega
        | cons a b => exact ⟨a, b, rfl⟩
      have hinit := initState_sinv dist q data removed k (β := β)
      obtain ⟨hS1, hm1, ⟨l1, hh1⟩, hcov1⟩ :=
        findNN_sinv dist q data maxChecks removed k t0 (initState k)
          (hgood t0 (List.mem_cons_self t0 ts)) hinit
      obtain ⟨hS2, hm2, ⟨l2, hh2⟩, hwb⟩ :=
        foldl_findNN_pres dist q data maxChecks removed k ts
          (findNN dist q maxChecks removed t0 (initState k))
          (fun t ht => hgood t (List.mem_cons_of_mem t0 ht)) hS1
      have hSfold : SInv dist q data removed k
          (List.foldl (fun s t => findNN dist q maxChecks removed t s)
            (initState k) (t0 :: ts)) := by
        rw [List.foldl_cons]
        exact hS2
      have hcovF : ∀ i ∈ allNonRemoved data.length removed,
          i ∈ (List.foldl (fun s t => findNN dist q maxChecks removed t s)
            (initState k) (t0 :: ts)).checked ∨
          ∃ b ∈ (List.foldl (fun s t => findNN dist q maxChecks removed t s)
            (initState k) (t0 :: ts)).heap, i ∈ (b.1 : Node α).leafIndices := by
        intro i hi
        have hi2 := Finset.mem_filter.1 hi
        have hiN : i < data.length := Finset.mem_range.1 hi2.1
        have hirem : removed i = false := hi2.2
        have hmc0 : (initState (α := α) (β := β) k).checks < maxChecks := by
          show 0 < maxChecks
          omega
        have hit0 : i ∈ t0.leafIndices :=
          (htree t0 (List.mem_cons_self t0 ts)).1.mem_iff.2 (List.mem_range.2 hiN)
        rcases hcov1 hmc0 i hit0 hirem with h | ⟨b, hb, hib⟩
        · left
          rw [List.foldl_cons]
          exact hm2 h
        · right
          refine ⟨b, ?_, hib⟩
          rw [List.foldl_cons, hh2]
          exact List.mem_append_left _ hb
      have hwstep : heapWeight (findNN dist q maxChecks removed t0
          (initState k)).heap + 1 ≤
          heapWeight (initState (α := α) (β := β) k).heap + t0.weight :=
        findNN_weight dist q maxChecks removed t0 (initState k)
      have hwinit : heapWeight (initState (α := α) (β := β) k).heap = 0 := rfl
      have hfw : forestWeight (t0 :: ts) = t0.weight + forestWeight ts := by
        rw [forestWeight, forestWeight, List.map_cons, List.sum_cons]
      have hwF : heapWeight (List.foldl
          (fun s t => findNN dist q maxChecks removed t s)
          (initState k) (t0 :: ts)).heap ≤ forestWeight (t0 :: ts) := by
        rw [List.foldl_cons]
        omega
      obtain ⟨hSfin, hchkfin⟩ := searchLoop_master dist q data maxChecks removed k
        hmc (forestWeight (t0 :: ts)) _ hSfold hwF hcovF
      obtain ⟨g1, g2, g3, g4, g5, g6, g7⟩ :=
        (SInv_def dist q data removed k _).1 hSfin
      have hJnodup : ((List.range data.length).filter fun i => !removed i).Nodup :=
        (List.nodup_range data.length).filter _
      have hJfinset : ((List.range data.length).filter
          fun i => !removed i).toFinset = allNonRemoved data.length removed := by
        ext x
        simp only [List.mem_toFinset, List.mem_filter, List.mem_range,
          Bool.not_eq_eq_eq_not, Bool.not_true]
        constructor
        · intro hx
          exact Finset.mem_filter.2 ⟨Finset.mem_range.2 hx.1, hx.2⟩
        · intro hx
          have hx2 := Finset.mem_filter.1 hx
          exact ⟨Finset.mem_range.1 hx2.1, hx2.2⟩
      have hperm := List.perm_of_nodup_nodup_toFinset_eq g3 hJnodup
        (by rw [g4, hchkfin, ← hJfinset])
      have hEvents : ∀ (E : List (β × Nat)),
          (∀ e ∈ E, e.1 = dist (data.getD e.2 default) q) →
          E = (E.map Prod.snd).map
            (fun i => (dist q (data.getD i default), i)) := by
        intro E
        induction E with
        | nil => intro _; rfl
        | cons e E ih =>
          intro h
          obtain ⟨d, i⟩ := e
          have he : d = dist (data.getD i default) q :=
            h (d, i) (List.mem_cons_self _ E)
          rw [List.map_cons, List.map_cons]
          show (d, i) :: E = (dist q (data.getD i default), i) :: _
          rw [he, hsym (data.getD i default) q,
            ← ih (fun e2 he2 => h e2 (List.mem_cons_of_mem (d, i) he2))]
      have hpermE : List.Perm
          ((searchLoop dist q maxChecks removed (forestWeight (t0 :: ts))
            (List.foldl (fun s t => findNN dist q maxChecks removed t s)
              (initState k) (t0 :: ts))).events)
          (bruteForcePairs dist q data removed) := by
        rw [hEvents _ g5]
        exact hperm.map _
      show (searchLoop dist q maxChecks removed (forestWeight (t0 :: ts))
        (List.foldl (fun s t => findNN dist q maxChecks removed t s)
          (initState k) (t0 :: ts))).res.pairs =
        bruteForceTopK k dist q data removed
      rw [g6, knn_foldl_empty, insertionSort_perm_eq hpermE]
      rfl

/-- Witness for C1: on the three-point integer dataset with budget 3 = N, the
search over the concretely built index returns exactly the brute-force
top-2. -/
theorem C1_exact_exhaustion_witness :
    (buildIndex sqDist 2 2 (fun l => if 3 ≤ l.length then [0, 2] else []) 5 1
        [(-5 : Int), 5, 1] =
      some ⟨[(-5 : Int), 5, 1], 3,
        [.mk 0 (.cons (.mk (-5) .nil [⟨0, -5⟩])
          (.cons (.mk 1 .nil [⟨1, 5⟩, ⟨2, 1⟩]) .nil)) []]⟩) ∧
    (findNeighbors sqDist 0 2 3 (fun _ => false)
        [.mk 0 (.cons (.mk (-5) .nil [⟨0, -5⟩])
          (.cons (.mk 1 .nil [⟨1, 5⟩, ⟨2, 1⟩]) .nil)) []]).res.pairs =
      bruteForceTopK 2 sqDist 0 [(-5 : Int), 5, 1] (fun _ => false) := by
  constructor
  · decide
  · exact C1_exact_exhaustion sqDist
      (fun a b => by show (a - b) * (a - b) = (b - a) * (b - a); ring)
      2 2 (fun l => if 3 ≤ l.length then [0, 2] else []) 5 1
      [(-5 : Int), 5, 1]
      ⟨[(-5 : Int), 5, 1], 3,
        [.mk 0 (.cons (.mk (-5) .nil [⟨0, -5⟩])
          (.cons (.mk 1 .nil [⟨1, 5⟩, ⟨2, 1⟩]) .nil)) []]⟩
      (by decide) (by decide) 0 2 3 (fun _ => false) (by decide)

end Flann
